import Mathlib

/-!
Verification development for the message-consistency and incremental-rendering
layer of the pi-mono repository.

Part 1 embeds the conversation data model (`packages/ai/src/types.ts`, as used
by `transform-messages.ts`) and the history normalizer
`transformMessages` (`packages/ai/src/providers/transform-messages.ts`).
Part 2 embeds `sanitizeSurrogates` (`packages/ai/src/utils/sanitize-unicode.ts`),
with JS strings modelled as lists of UTF-16 code units (`List Nat`).
Part 3 embeds the incremental renderer `AssistantMessageComponent`
(`packages/coding-agent/src/modes/interactive/components/assistant-message.ts`)
as explicit state passing over a `RendererState` record.

JS-specific behaviours are modelled explicitly: string truthiness is
`strTruthy` (a string is truthy iff non-empty), `Date.now()` is an explicit
`now : Nat` argument, and `Map` / `Set` become association lists where the
most recent write shadows older ones / membership lists.
-/

namespace Pi

/-- `stopReason` of an assistant message: `"stop" | "toolUse" | "error" | "aborted"`. -/
inductive StopReason where
  | stop
  | toolUse
  | error
  | aborted
  deriving DecidableEq, Repr

/-- A tool-call content block (`ToolCall` in `types.ts`): provider-assigned `id`,
tool `name`, an opaque `arguments` payload, and an optional provider-specific
`thoughtSignature`. -/
structure ToolCall where
  id : String
  name : String
  arguments : String
  thoughtSignature : Option String
  deriving DecidableEq, Repr

/-- A content block of an assistant message: `TextContent`, `ThinkingContent`,
`ToolCall`, or any other block kind (which `transformMessages` passes through
unmodified; modelled opaquely). -/
inductive ContentBlock where
  | text (text : String)
  | thinking (thinking : String) (thinkingSignature : Option String)
  | toolCall (tc : ToolCall)
  | otherBlock (data : String)
  deriving DecidableEq, Repr

/-- An assistant message: content blocks, model-identity triple
`(provider, api, model)`, `stopReason`, and the `errorMessage` consulted by the
renderer. Fields not read by the embedded code (usage, etc.) are omitted. -/
structure AssistantMessage where
  content : List ContentBlock
  provider : String
  api : String
  model : String
  stopReason : StopReason
  errorMessage : Option String
  timestamp : Nat
  deriving DecidableEq, Repr

/-- A tool-result message: `toolCallId` back-reference, `toolName`, content,
`isError` flag, timestamp. -/
structure ToolResultMessage where
  toolCallId : String
  toolName : String
  content : List ContentBlock
  isError : Bool
  timestamp : Nat
  deriving DecidableEq, Repr

/-- A conversation message: user, assistant, tool result, or any other role
(passed through unmodified by the normalizer; modelled opaquely). -/
inductive Message where
  | user (content : String) (timestamp : Nat)
  | assistant (m : AssistantMessage)
  | toolResult (r : ToolResultMessage)
  | otherRole (data : String)
  deriving DecidableEq, Repr

/-- The target model identity. The source `Model` record carries more fields
(name, baseUrl, cost, ...); `transformMessages` reads only `provider`, `api`
and `id`. -/
structure ModelSpec where
  provider : String
  api : String
  id : String
  deriving DecidableEq, Repr

/-- The optional `normalizeToolCallId` callback:
`(id, model, sourceMessage) => newId`. -/
def RemapFn : Type := String → ModelSpec → AssistantMessage → String

/-- JS string truthiness for optional string fields: truthy iff present and
non-empty. -/
def strTruthy : Option String → Bool
  | none => false
  | some s => s ≠ ""

/-- Model of JS `String.prototype.trim()`: strip whitespace from both ends
(defined over the character list so it evaluates by kernel reduction). -/
def jsTrim (s : String) : String :=
  String.mk (((s.data.dropWhile Char.isWhitespace).reverse.dropWhile
    Char.isWhitespace).reverse)

/-- `isSameModel`: the assistant message's recorded identity triple equals the
target model's. -/
def sameModel (a : AssistantMessage) (model : ModelSpec) : Bool :=
  a.provider = model.provider ∧ a.api = model.api ∧ a.model = model.id

/-- Association-list model of the JS `Map<string,string>` `toolCallIdMap`:
`get` returns the most recent binding. -/
def idLookup : List (String × String) → String → Option String
  | [], _ => none
  | (k, v) :: rest, key => if k = key then some v else idLookup rest key

/-- `Map.set` semantics: each new binding is prepended, so `idLookup` sees the
latest write. `adds` are applied left to right. -/
def applyAdds (m : List (String × String)) (adds : List (String × String)) :
    List (String × String) :=
  adds.foldl (fun acc kv => kv :: acc) m

/-- Transform one assistant content block
(the body of the `flatMap` in `transformMessages`), returning the produced
blocks and the `toolCallIdMap` entries recorded (`Map.set` calls), in order. -/
def transformBlock (isSameModel : Bool) (remap : Option RemapFn) (model : ModelSpec)
    (src : AssistantMessage) : ContentBlock → List ContentBlock × List (String × String)
  | .thinking t sig =>
    if isSameModel && strTruthy sig then ([.thinking t sig], [])
    else if jsTrim t = "" then ([], [])
    else if isSameModel then ([.thinking t sig], [])
    else ([.text t], [])
  | .text t =>
    if isSameModel then ([.text t], []) else ([.text t], [])
  | .toolCall tc =>
    let tc1 : ToolCall :=
      if !isSameModel && strTruthy tc.thoughtSignature then
        { tc with thoughtSignature := none }
      else tc
    match remap with
    | some f =>
      if !isSameModel then
        let nid := f tc.id model src
        if nid ≠ tc.id then ([.toolCall { tc1 with id := nid }], [(tc.id, nid)])
        else ([.toolCall tc1], [])
      else ([.toolCall tc1], [])
    | none => ([.toolCall tc1], [])
  | .otherBlock d => ([.otherBlock d], [])

/-- The `flatMap` over an assistant message's content, accumulating blocks and
`toolCallIdMap` entries in block order. -/
def transformContent (isSameModel : Bool) (remap : Option RemapFn) (model : ModelSpec)
    (src : AssistantMessage) : List ContentBlock → List ContentBlock × List (String × String)
  | [] => ([], [])
  | b :: rest =>
    let (bs, adds) := transformBlock isSameModel remap model src b
    let (bs', adds') := transformContent isSameModel remap model src rest
    (bs ++ bs', adds ++ adds')

/-- The synthetic failed tool result created for an orphaned tool call. -/
def syntheticToolResult (now : Nat) (tc : ToolCall) : ToolResultMessage :=
  { toolCallId := tc.id
    toolName := tc.name
    content := [.text "No result provided"]
    isError := true
    timestamp := now }

/-- Synthesize failed tool results for every pending tool call whose id was not
already seen, in original tool-call order. -/
def flushPending (now : Nat) (pending : List ToolCall) (seen : List String) : List Message :=
  (pending.filter (fun tc => decide (tc.id ∉ seen))).map
    (fun tc => Message.toolResult (syntheticToolResult now tc))

/-- Is this content block a tool call? (`b.type === "toolCall"`). -/
def isToolCallBlock : ContentBlock → Bool
  | .toolCall _ => true
  | _ => false

/-- The tool-call blocks of a content list. -/
def toolCallsOf (blocks : List ContentBlock) : List ToolCall :=
  blocks.filterMap fun b => match b with
    | .toolCall tc => some tc
    | _ => none

/-- The normalizer's loop state: `toolCallIdMap` (pass-global),
`pendingToolCalls` and `existingToolResultIds` (batch-scoped). -/
structure NormState where
  idMap : List (String × String)
  pending : List ToolCall
  seen : List String
  deriving Repr

/-- The initial loop state. -/
def initState : NormState := ⟨[], [], []⟩

/-- One rewritten tool-result message: if `toolCallIdMap` has a truthy entry
different from the current id, rewrite; otherwise pass through. -/
def rewriteToolResult (idMap : List (String × String)) (r : ToolResultMessage) :
    ToolResultMessage :=
  match idLookup idMap r.toolCallId with
  | some nid => if nid ≠ "" ∧ nid ≠ r.toolCallId then { r with toolCallId := nid } else r
  | none => r

/-- The transformed assistant message together with the `toolCallIdMap`
entries it records. -/
def transformAssistant (model : ModelSpec) (remap : Option RemapFn)
    (a : AssistantMessage) : AssistantMessage × List (String × String) :=
  let (newContent, adds) := transformContent (sameModel a model) remap model a a.content
  ({ a with content := newContent }, adds)

/-- The single left-to-right pass of `transformMessages`, with the loop state
made explicit. Each case mirrors the corresponding `if (msg.role === ...)`
branch of the source. -/
def transformGo (model : ModelSpec) (remap : Option RemapFn) (now : Nat) :
    List Message → NormState → List Message
  | [], _ => []
  | .user c t :: rest, st =>
    if st.pending ≠ [] then
      flushPending now st.pending st.seen ++
        (Message.user c t :: transformGo model remap now rest { st with pending := [], seen := [] })
    else
      Message.user c t :: transformGo model remap now rest st
  | .toolResult r :: rest, st =>
    let r' := rewriteToolResult st.idMap r
    Message.toolResult r' ::
      transformGo model remap now rest { st with seen := st.seen ++ [r'.toolCallId] }
  | .assistant a :: rest, st =>
    let fl := if st.pending ≠ [] then flushPending now st.pending st.seen else []
    let st1 := if st.pending ≠ [] then { st with pending := [], seen := [] } else st
    if a.stopReason = .error ∨ a.stopReason = .aborted then
      fl ++ transformGo model remap now rest st1
    else
      let (a', adds) := transformAssistant model remap a
      let tcs := toolCallsOf a'.content
      let st2 : NormState := { st1 with idMap := applyAdds st1.idMap adds }
      let st3 := if tcs ≠ [] then { st2 with pending := tcs, seen := [] } else st2
      fl ++ (Message.assistant a' :: transformGo model remap now rest st3)
  | .otherRole d :: rest, st =>
    Message.otherRole d :: transformGo model remap now rest st

/-- `transformMessages(messages, model, normalizeToolCallId?)`. `Date.now()` is
passed in as `now`. -/
def transformMessages (messages : List Message) (model : ModelSpec)
    (remap : Option RemapFn) (now : Nat) : List Message :=
  transformGo model remap now messages initState

/-!
### Part 2: `sanitizeSurrogates`

JS strings are sequences of UTF-16 code units; unpaired surrogates can occur.
We model them as `List Nat`. The source removes, with a single global-`replace`
over the original string, every code unit matching
`[\uD800-\uDBFF](?![\uDC00-\uDFFF])|(?<![\uD800-\uDBFF])[\uDC00-\uDFFF]`
(each match is one code unit; lookarounds inspect the original string), after a
fast-path test `/[\uD800-\uDFFF]/`.
-/

/-- High surrogate code unit: `0xD800`–`0xDBFF`. -/
def isHighSurrogate (u : Nat) : Bool := decide (0xD800 ≤ u ∧ u ≤ 0xDBFF)

/-- Low surrogate code unit: `0xDC00`–`0xDFFF`. -/
def isLowSurrogate (u : Nat) : Bool := decide (0xDC00 ≤ u ∧ u ≤ 0xDFFF)

/-- Any surrogate-range code unit: `0xD800`–`0xDFFF` (the fast-path regex). -/
def inSurrogateRange (u : Nat) : Bool := decide (0xD800 ≤ u ∧ u ≤ 0xDFFF)

/-- The regex replacement scan: a code unit is kept unless it is a high
surrogate not immediately followed by a low surrogate, or a low surrogate not
immediately preceded (in the original string) by a high surrogate. `prev` is
the original preceding code unit. -/
def sanitizeAux (prev : Option Nat) : List Nat → List Nat
  | [] => []
  | u :: rest =>
    let keep : Bool :=
      if isHighSurrogate u then
        match rest with
        | v :: _ => isLowSurrogate v
        | [] => false
      else if isLowSurrogate u then
        match prev with
        | some p => isHighSurrogate p
        | none => false
      else true
    if keep then u :: sanitizeAux (some u) rest else sanitizeAux (some u) rest

/-- `sanitizeSurrogates(text)`: fast path when no surrogate-range unit is
present, otherwise the regex removal scan. -/
def sanitizeSurrogates (text : List Nat) : List Nat :=
  if text.any inSurrogateRange then sanitizeAux none text else text

/-- Claim-side (index-based) description of an unpaired surrogate: the unit at
position `i` is a high surrogate with no low surrogate at `i+1`, or a low
surrogate with no high surrogate at `i-1`; `prev` supplies the unit before
position 0 (none for a whole string). -/
def unpairedAtP (prev : Option Nat) (s : List Nat) (i : Nat) : Bool :=
  match s.get? i with
  | none => false
  | some u =>
    (isHighSurrogate u && !(match s.get? (i + 1) with
        | some v => isLowSurrogate v
        | none => false)) ||
    (isLowSurrogate u && !(match i with
        | 0 => (match prev with | some p => isHighSurrogate p | none => false)
        | j + 1 => match s.get? j with | some p => isHighSurrogate p | none => false))

/-- Claim-side description with a `prev` parameter: keep exactly the code
units that are not unpaired surrogates, in order. -/
def removeUnpairedAux (prev : Option Nat) (s : List Nat) : List Nat :=
  (List.range s.length).filterMap fun i =>
    if unpairedAtP prev s i then none else s.get? i

/-- Claim-side description of `sanitizeSurrogates`: remove exactly the
unpaired surrogate code units of the string, preserving all others in order. -/
def removeUnpairedSurrogates (s : List Nat) : List Nat :=
  removeUnpairedAux none s

/-!
### Part 3: the incremental renderer (`AssistantMessageComponent`)

The stateful component is embedded as explicit state passing over
`RendererState`. A `Markdown` render object is modelled by an allocation
identity (`id`, drawn from a counter `nextId`) plus its current text;
`setText` is the functional update of the text field (a no-op when the text is
unchanged). The pool key `"{type}-{contentIndex}"` is modelled by the
injective `PoolKey` type. Terminal styling (`theme.fg`, italics) is opaque
presentation data and is not modelled.
-/

/-- A pooled `Markdown` render object: allocation identity plus current text. -/
structure Markdown where
  id : Nat
  text : String
  deriving DecidableEq, Repr

/-- The pool key `"text-{i}"` / `"thinking-{i}"` (the string format is
injective, so a two-constructor key is a faithful model). -/
inductive PoolKey where
  | text (i : Nat)
  | thinking (i : Nat)
  deriving DecidableEq, Repr

/-- The content index baked into a pool key. -/
def PoolKey.idx : PoolKey → Nat
  | .text i => i
  | .thinking i => i

/-- A render unit handed to the terminal-UI collaborator: a `Spacer`, a pooled
`Markdown`, or a plain `Text` line. -/
inductive RenderUnit where
  | spacer (height : Nat)
  | markdown (md : Markdown)
  | plainText (s : String)
  deriving DecidableEq, Repr

/-- The render-object pool (`markdownPool : Map<string, Markdown>`). -/
def Pool : Type := List (PoolKey × Markdown)

/-- `Map.get` on the pool. -/
def poolLookup : List (PoolKey × Markdown) → PoolKey → Option Markdown
  | [], _ => none
  | (k, v) :: rest, key => if k = key then some v else poolLookup rest key

/-- `Map.set` on an existing key: replace the binding in place. -/
def poolReplace : List (PoolKey × Markdown) → PoolKey → Markdown →
    List (PoolKey × Markdown)
  | [], _, _ => []
  | (k, v) :: rest, key, md =>
    if k = key then (k, md) :: rest else (k, v) :: poolReplace rest key md

/-- `getMarkdown(key, text)`: reuse the pooled instance via `setText` (same
`id`), or create a fresh instance from the allocation counter. Returns the
instance, the new pool and the new counter. -/
def getMarkdown (pool : List (PoolKey × Markdown)) (nextId : Nat) (key : PoolKey)
    (text : String) : Markdown × List (PoolKey × Markdown) × Nat :=
  match poolLookup pool key with
  | some md =>
    let md' := { md with text := text }
    (md', poolReplace pool key md', nextId)
  | none =>
    let md : Markdown := { id := nextId, text := text }
    (md, pool ++ [(key, md)], nextId + 1)

/-- `bufferToCompleteLines`: the text up to and including the last newline
(`lastIndexOf("\n")`); empty when no newline is present. -/
def bufferToCompleteLines (fullText : String) : String :=
  match fullText.data.reverse.dropWhile (fun c => c ≠ '\n') with
  | [] => ""
  | l => String.mk l.reverse

/-- The text handed to the render object for a text/thinking block:
complete lines only while streaming, the full text once finalized, trimmed
either way. -/
def displayTextOf (streaming : Bool) (raw : String) : String :=
  if streaming then jsTrim (bufferToCompleteLines raw) else jsTrim raw

/-- A block contributing visible text/thinking content
(`c.text.trim()` / `c.thinking.trim()` truthy). -/
def isVisibleBlock : ContentBlock → Bool
  | .text t => jsTrim t ≠ ""
  | .thinking t _ => jsTrim t ≠ ""
  | _ => false

/-- The per-block rendering loop of `rebuildContent` (the `for` loop over
`message.content`), threading the pool and the allocation counter. `i` is the
current content index; the visible-content-after test uses the remaining
blocks, matching `message.content.slice(i + 1)`. -/
def renderBlocks (streaming hide : Bool) :
    Nat → List ContentBlock → List (PoolKey × Markdown) → Nat →
    List RenderUnit × List (PoolKey × Markdown) × Nat
  | _, [], pool, nid => ([], pool, nid)
  | i, .text t :: rest, pool, nid =>
    if jsTrim t ≠ "" then
      let d := displayTextOf streaming t
      if d ≠ "" then
        let (md, pool', nid') := getMarkdown pool nid (.text i) d
        let (us, pool'', nid'') := renderBlocks streaming hide (i + 1) rest pool' nid'
        (RenderUnit.markdown md :: us, pool'', nid'')
      else renderBlocks streaming hide (i + 1) rest pool nid
    else renderBlocks streaming hide (i + 1) rest pool nid
  | i, .thinking t _sig :: rest, pool, nid =>
    if jsTrim t ≠ "" then
      let after := rest.any isVisibleBlock
      if hide then
        let (us, pool', nid') := renderBlocks streaming hide (i + 1) rest pool nid
        (RenderUnit.plainText "Thinking..." ::
          ((if after then [RenderUnit.spacer 1] else []) ++ us), pool', nid')
      else
        let d := displayTextOf streaming t
        if d ≠ "" then
          let (md, pool', nid') := getMarkdown pool nid (.thinking i) d
          let (us, pool'', nid'') := renderBlocks streaming hide (i + 1) rest pool' nid'
          (RenderUnit.markdown md ::
            ((if after then [RenderUnit.spacer 1] else []) ++ us), pool'', nid'')
        else
          let (us, pool', nid') := renderBlocks streaming hide (i + 1) rest pool nid
          ((if after then [RenderUnit.spacer 1] else []) ++ us, pool', nid')
    else renderBlocks streaming hide (i + 1) rest pool nid
  | i, .toolCall _ :: rest, pool, nid => renderBlocks streaming hide (i + 1) rest pool nid
  | i, .otherBlock _ :: rest, pool, nid => renderBlocks streaming hide (i + 1) rest pool nid

/-- The trailing error/abort notice (suppressed when the message has any
tool-call block, which is rendered by a separate collaborator). -/
def errorNotice (message : AssistantMessage) : List RenderUnit :=
  if message.content.any isToolCallBlock then []
  else
    match message.stopReason with
    | .aborted =>
      let abortMessage :=
        match message.errorMessage with
        | some em => if em ≠ "" ∧ em ≠ "Request was aborted" then em else "Operation aborted"
        | none => "Operation aborted"
      [RenderUnit.spacer 1, RenderUnit.plainText abortMessage]
    | .error =>
      let errorMsg :=
        match message.errorMessage with
        | some em => if em ≠ "" then em else "Unknown error"
        | none => "Unknown error"
      [RenderUnit.spacer 1, RenderUnit.plainText ("Error: " ++ errorMsg)]
    | _ => []

/-- The component state: `hideThinkingBlock`, `lastMessage`, `streaming`, the
pool with its allocation counter, and the current children of
`contentContainer`. -/
structure RendererState where
  hideThinkingBlock : Bool
  lastMessage : Option AssistantMessage
  streaming : Bool
  pool : List (PoolKey × Markdown)
  nextId : Nat
  content : List RenderUnit
  deriving Repr

/-- A freshly constructed component (no initial message): `streaming` starts
`true`, the pool and content are empty. -/
def initialRenderer (hide : Bool) : RendererState :=
  { hideThinkingBlock := hide
    lastMessage := none
    streaming := true
    pool := []
    nextId := 0
    content := [] }

/-- `rebuildContent()`: clear the container, add the leading spacer iff the
message has visible content, render the blocks, then the error/abort notice. -/
def rebuildContent (st : RendererState) : RendererState :=
  match st.lastMessage with
  | none => st
  | some message =>
    let lead := if message.content.any isVisibleBlock then [RenderUnit.spacer 1] else []
    let (us, pool', nid') :=
      renderBlocks st.streaming st.hideThinkingBlock 0 message.content st.pool st.nextId
    { st with content := lead ++ us ++ errorNotice message, pool := pool', nextId := nid' }

/-- `updateContent(message)`: record the snapshot and rebuild. -/
def updateContent (st : RendererState) (message : AssistantMessage) : RendererState :=
  rebuildContent { st with lastMessage := some message }

/-- `finalise()`: leave streaming permanently and rebuild (flushing any
buffered partial line) if a message is present. -/
def finalise (st : RendererState) : RendererState :=
  let st' := { st with streaming := false }
  match st'.lastMessage with
  | some _ => rebuildContent st'
  | none => st'

/-- `invalidate()`: the pool is stale (theme/visibility change); clear it and
rebuild if a message is present. -/
def invalidate (st : RendererState) : RendererState :=
  let st' := { st with pool := [] }
  match st'.lastMessage with
  | some _ => rebuildContent st'
  | none => st'

/-- `setHideThinkingBlock(hide)`: no-op when unchanged, otherwise flip the
flag and clear the pool (Markdown and Text representations are not
interchangeable). -/
def setHideThinkingBlock (st : RendererState) (hide : Bool) : RendererState :=
  if st.hideThinkingBlock = hide then st
  else { st with hideThinkingBlock := hide, pool := [] }

/-- An externally driven operation on the component. -/
inductive RendererOp where
  | update (message : AssistantMessage)
  | finaliseOp
  | invalidateOp
  | setHide (hide : Bool)

/-- Apply one operation. -/
def applyOp (st : RendererState) : RendererOp → RendererState
  | .update m => updateContent st m
  | .finaliseOp => finalise st
  | .invalidateOp => invalidate st
  | .setHide h => setHideThinkingBlock st h

/-- Apply a sequence of operations, left to right. -/
def applyOps (st : RendererState) (ops : List RendererOp) : RendererState :=
  ops.foldl applyOp st

/-- The texts handed to pooled markdown render objects, in order. -/
def mdTextsOf (units : List RenderUnit) : List String :=
  units.filterMap fun u => match u with
    | .markdown md => some md.text
    | _ => none

/-- Claim-side description of the visible markdown texts: for each text or
thinking block with visible content, the display text (complete lines while
streaming, full text otherwise, trimmed), skipping blocks whose display text
is empty. -/
def expectedMdTexts (streaming : Bool) (blocks : List ContentBlock) : List String :=
  blocks.filterMap fun b => match b with
    | .text t =>
      if jsTrim t ≠ "" ∧ displayTextOf streaming t ≠ "" then
        some (displayTextOf streaming t)
      else none
    | .thinking t _ =>
      if jsTrim t ≠ "" ∧ displayTextOf streaming t ≠ "" then
        some (displayTextOf streaming t)
      else none
    | _ => none

/-!
### Fixtures and proof-side predicates
-/

/-- The keep-condition of the `sanitizeAux` scan for the unit `u`, with
original predecessor `prev` and original successor list `rest`. -/
def keepUnit (prev : Option Nat) (u : Nat) (rest : List Nat) : Bool :=
  if isHighSurrogate u then
    match rest with
    | v :: _ => isLowSurrogate v
    | [] => false
  else if isLowSurrogate u then
    match prev with
    | some p => isHighSurrogate p
    | none => false
  else true

/-!
### Concrete fixtures for witnesses and counterexamples
-/

/-- A target model (the fixture of the repository's own tests). -/
def modelA : ModelSpec :=
  { provider := "anthropic", api := "anthropic-messages", id := "claude-sonnet-4-5" }

/-- An assistant message produced by `modelA`. -/
def mkSameModel (blocks : List ContentBlock) (sr : StopReason) : AssistantMessage :=
  { content := blocks, provider := "anthropic", api := "anthropic-messages",
    model := "claude-sonnet-4-5", stopReason := sr, errorMessage := none, timestamp := 0 }

/-- An assistant message produced by a different provider. -/
def mkCrossModel (blocks : List ContentBlock) (sr : StopReason) : AssistantMessage :=
  { content := blocks, provider := "openai", api := "openai-responses",
    model := "gpt", stopReason := sr, errorMessage := none, timestamp := 0 }

/-- Fixture tool calls. -/
def tcA : ToolCall := { id := "tool_1", name := "read", arguments := "fileA", thoughtSignature := none }

def tcB : ToolCall := { id := "tool_2", name := "read", arguments := "fileB", thoughtSignature := none }

/-- A fixture tool-result message answering `tcA`. -/
def trA : ToolResultMessage :=
  { toolCallId := "tool_1", toolName := "read", content := [.text "file content"],
    isError := false, timestamp := 0 }

/-- Does any assistant message in the list contain a thinking block with
empty/whitespace-only text? (The claim asserts this is always `false` on
normalizer output.) -/
def hasWhitespaceThinking (msgs : List Message) : Bool :=
  msgs.any fun m => match m with
    | .assistant a => a.content.any fun b => match b with
        | .thinking t _ => jsTrim t = ""
        | _ => false
    | _ => false

/-- A thinking block survives same-model passthrough untouched iff it has
non-blank text or a non-empty signature; every other block kind always
does. -/
def thinkingKept : ContentBlock → Prop
  | .thinking t sig => jsTrim t ≠ "" ∨ strTruthy sig = true
  | _ => True

instance : DecidablePred thinkingKept := fun b =>
  match b with
  | .thinking t sig => inferInstanceAs (Decidable (jsTrim t ≠ "" ∨ strTruthy sig = true))
  | .text _ => inferInstanceAs (Decidable True)
  | .toolCall _ => inferInstanceAs (Decidable True)
  | .otherBlock _ => inferInstanceAs (Decidable True)

/-- Fixture: a cross-model tool call with id `"a"`. -/
def tcIdA : ToolCall := { id := "a", name := "read", arguments := "x", thoughtSignature := none }

/-- Fixture: a tool result answering id `"a"`. -/
def trIdA : ToolResultMessage :=
  { toolCallId := "a", toolName := "read", content := [.text "ok"],
    isError := false, timestamp := 0 }

/-- Fixture snapshots for the streaming scenario of the spec. -/
def msgHW1 : AssistantMessage := mkSameModel [.text "Hello wor"] .stop

def msgHW2 : AssistantMessage := mkSameModel [.text "Hello world\n"] .stop

/-- All of the second pass's pending tool calls already have answers. -/
def pendingCovered (st : NormState) : Prop := ∀ tc ∈ st.pending, tc.id ∈ st.seen

/-- The simulation relation between the first pass's state and the second
pass's state at a chunk boundary: both id maps are empty, and the second
pass's batch either equals the first pass's, or the first pass's batch is
empty while the second pass's pending calls are all covered. -/
def StRel (st1 st2 : NormState) : Prop :=
  st1.idMap = [] ∧ st2.idMap = [] ∧
    ((st2.pending = st1.pending ∧ st2.seen = st1.seen) ∨
      (st1.pending = [] ∧ pendingCovered st2))

/-!
## Theorems

### C10: `sanitizeSurrogates` removes exactly the unpaired surrogates
-/

theorem isHighSurrogate_inRange {u : Nat} (h : isHighSurrogate u = true) :
    inSurrogateRange u = true := by
  simp only [isHighSurrogate, decide_eq_true_eq] at h
  simp only [inSurrogateRange, decide_eq_true_eq]
  omega

theorem isLowSurrogate_inRange {u : Nat} (h : isLowSurrogate u = true) :
    inSurrogateRange u = true := by
  simp only [isLowSurrogate, decide_eq_true_eq] at h
  simp only [inSurrogateRange, decide_eq_true_eq]
  omega

theorem not_high_and_low {u : Nat} (h : isHighSurrogate u = true) :
    isLowSurrogate u = false := by
  simp only [isHighSurrogate, decide_eq_true_eq] at h
  simp only [isLowSurrogate, decide_eq_false_iff_not]
  omega

theorem sanitizeAux_of_no_surrogates : ∀ (s : List Nat) (prev : Option Nat),
    (∀ u ∈ s, inSurrogateRange u = false) → sanitizeAux prev s = s := by
  intro s
  induction s with
  | nil => intro prev _; rfl
  | cons u rest ih =>
    intro prev h
    have hu : inSurrogateRange u = false := h u (by simp)
    have hh : isHighSurrogate u = false := by
      cases hhigh : isHighSurrogate u with
      | false => rfl
      | true => rw [isHighSurrogate_inRange hhigh] at hu; exact hu.symm ▸ rfl
    have hl : isLowSurrogate u = false := by
      cases hlow : isLowSurrogate u with
      | false => rfl
      | true => rw [isLowSurrogate_inRange hlow] at hu; exact hu.symm ▸ rfl
    simp only [sanitizeAux, hh, hl, Bool.false_eq_true, if_false, if_true]
    rw [ih (some u) (fun v hv => h v (by simp [hv]))]

theorem sanitizeAux_cons (prev : Option Nat) (u : Nat) (rest : List Nat) :
    sanitizeAux prev (u :: rest) =
      if keepUnit prev u rest then u :: sanitizeAux (some u) rest
      else sanitizeAux (some u) rest := rfl

theorem unpairedAtP_zero (prev : Option Nat) (u : Nat) (rest : List Nat) :
    unpairedAtP prev (u :: rest) 0 = !keepUnit prev u rest := by
  rcases hh : isHighSurrogate u with _ | _
  · rcases hl : isLowSurrogate u with _ | _
    · simp [unpairedAtP, keepUnit, hh, hl]
    · cases prev with
      | none => simp [unpairedAtP, keepUnit, hh, hl]
      | some p => simp [unpairedAtP, keepUnit, hh, hl]
  · have hl := not_high_and_low hh
    cases rest with
    | nil => simp [unpairedAtP, keepUnit, hh, hl]
    | cons v tail => simp [unpairedAtP, keepUnit, hh, hl]

theorem unpairedAtP_cons_succ (prev : Option Nat) (u : Nat) (rest : List Nat) (i : Nat) :
    unpairedAtP prev (u :: rest) (i + 1) = unpairedAtP (some u) rest i := by
  cases i with
  | zero => simp [unpairedAtP]
  | succ j => simp [unpairedAtP]

theorem removeUnpairedAux_cons (prev : Option Nat) (u : Nat) (rest : List Nat) :
    removeUnpairedAux prev (u :: rest) =
      (if unpairedAtP prev (u :: rest) 0 then [] else [u]) ++ removeUnpairedAux (some u) rest := by
  simp only [removeUnpairedAux, List.length_cons, List.range_succ_eq_map,
    List.filterMap_cons, List.filterMap_map]
  rcases h0 : unpairedAtP prev (u :: rest) 0 with _ | _
  · simp only [h0, Bool.false_eq_true, if_false, List.get?]
    congr 1
    apply List.filterMap_congr
    intro i _
    simp only [Function.comp_apply, unpairedAtP_cons_succ, List.get?]
  · simp only [h0, if_true, List.nil_append]
    apply List.filterMap_congr
    intro i _
    simp only [Function.comp_apply, unpairedAtP_cons_succ, List.get?]

theorem sanitizeAux_eq_removeUnpairedAux : ∀ (s : List Nat) (prev : Option Nat),
    sanitizeAux prev s = removeUnpairedAux prev s := by
  intro s
  induction s with
  | nil => intro prev; rfl
  | cons u rest ih =>
    intro prev
    rw [removeUnpairedAux_cons, sanitizeAux_cons, unpairedAtP_zero]
    rcases hk : keepUnit prev u rest with _ | _ <;> simp [ih]

/-- C10: `sanitizeSurrogates` removes exactly the unpaired surrogate code
units — those at a position holding a high surrogate (`0xD800`–`0xDBFF`) not
immediately followed by a low surrogate (`0xDC00`–`0xDFFF`), or a low
surrogate not immediately preceded by a high surrogate — preserving all other
code units in order; and any string with no surrogate-range code unit at all
is returned unchanged (so properly paired surrogate pairs are preserved). -/
theorem sanitizeSurrogates_spec (s : List Nat) :
    sanitizeSurrogates s = removeUnpairedSurrogates s ∧
      ((∀ u ∈ s, inSurrogateRange u = false) → sanitizeSurrogates s = s) := by
  constructor
  · unfold sanitizeSurrogates removeUnpairedSurrogates
    rcases hany : s.any inSurrogateRange with _ | _
    · simp only [Bool.false_eq_true, if_false]
      rw [← sanitizeAux_eq_removeUnpairedAux]
      have hall : ∀ u ∈ s, inSurrogateRange u = false := by
        simpa [List.any_eq_false] using hany
      exact (sanitizeAux_of_no_surrogates s none hall).symm
    · simp only [if_true]
      exact sanitizeAux_eq_removeUnpairedAux s none
  · intro hall
    unfold sanitizeSurrogates
    have hany : s.any inSurrogateRange = false := by
      simpa [List.any_eq_false] using hall
    simp [hany]

/-- C10 witness: on `[72, 0xD83D, 0xDE48, 0xD800]` (text, a properly paired
emoji, then an unpaired high surrogate) the scan agrees with the positional
description; and the surrogate-free string `[72, 105]` is returned
unchanged. -/
theorem sanitizeSurrogates_spec_witness :
    sanitizeSurrogates [72, 0xD83D, 0xDE48, 0xD800] =
        removeUnpairedSurrogates [72, 0xD83D, 0xDE48, 0xD800] ∧
      sanitizeSurrogates [72, 105] = [72, 105] :=
  ⟨(sanitizeSurrogates_spec [72, 0xD83D, 0xDE48, 0xD800]).1,
    (sanitizeSurrogates_spec [72, 105]).2 (by decide)⟩

/-!
### C3: error/aborted assistant turns are excluded entirely
-/

/-- C3: an assistant message with `stopReason` `error` or `aborted`
contributes nothing to the output of the normalizer pass: the step emits only
the flush of the *previous* batch's orphans, the message's own content appears
nowhere, and the continuation state carries none of its tool calls as pending
(so they can trigger no synthetic results later). -/
theorem error_turn_exclusion (model : ModelSpec) (remap : Option RemapFn) (now : Nat)
    (a : AssistantMessage) (rest : List Message) (st : NormState)
    (h : a.stopReason = .error ∨ a.stopReason = .aborted) :
    transformGo model remap now (Message.assistant a :: rest) st =
      (if st.pending ≠ [] then flushPending now st.pending st.seen else []) ++
        transformGo model remap now rest
          (if st.pending ≠ [] then { st with pending := [], seen := [] } else st) := by
  simp only [transformGo, if_pos h]

/-- C3 witness: a concrete errored assistant turn with a tool call, in a state
with one unanswered pending call, emits exactly the synthetic result for the
*prior* pending call and drops the errored message and its tool call. -/
theorem error_turn_exclusion_witness :
    transformGo modelA none 5
        [Message.assistant (mkSameModel [.text "boom", .toolCall tcB] .error)]
        ⟨[], [tcA], []⟩ =
      flushPending 5 [tcA] [] ++
        transformGo modelA none 5 [] (⟨[], [], []⟩ : NormState) := by
  have h := error_turn_exclusion modelA none 5 (mkSameModel [.text "boom", .toolCall tcB] .error)
    [] ⟨[], [tcA], []⟩ (Or.inl rfl)
  simpa using h

/-!
### C2: empty/whitespace-only thinking blocks

The claim says *no* empty/whitespace-only thinking block survives,
"regardless of whether the source message is same-model and regardless of
whether a thinkingSignature is present". The source checks
`isSameModel && block.thinkingSignature` *before* the emptiness check, so a
same-model thinking block with a (non-empty) signature survives even with
empty text. The amended property: an empty/whitespace-only thinking block in
the output can only be a same-model block carrying a non-empty signature.
-/

/-- C2 counterexample: a same-model assistant message whose single thinking
block has empty text but carries a signature is passed through verbatim, so
an empty thinking block *does* appear in the output of `transformMessages`. -/
theorem empty_thinking_counterexample :
    hasWhitespaceThinking
      (transformMessages [Message.assistant (mkSameModel [.thinking "" (some "sig_1")] .stop)]
        modelA none 0) = true := by decide

theorem thinking_in_transformBlock (isSame : Bool) (remap : Option RemapFn)
    (model : ModelSpec) (src : AssistantMessage) (blk : ContentBlock) (t : String)
    (sig : Option String)
    (hmem : ContentBlock.thinking t sig ∈ (transformBlock isSame remap model src blk).1)
    (ht : jsTrim t = "") : isSame = true ∧ strTruthy sig = true := by
  cases blk with
  | thinking t' sig' =>
    by_cases h1 : (isSame && strTruthy sig') = true
    · simp only [transformBlock, h1, if_true, List.mem_singleton] at hmem
      cases hmem
      exact ⟨(Bool.and_eq_true _ _ ▸ h1).1, (Bool.and_eq_true _ _ ▸ h1).2⟩
    · by_cases h2 : jsTrim t' = ""
      · simp [transformBlock, h1, h2] at hmem
      · rcases hs : isSame with _ | _
        · have hout : (transformBlock isSame remap model src (.thinking t' sig')).1 =
              [.text t'] := by
            simp [transformBlock, hs, h2]
          rw [hout, List.mem_singleton] at hmem
          cases hmem
        · have hout : (transformBlock isSame remap model src (.thinking t' sig')).1 =
              [.thinking t' sig'] := by
            by_cases h1' : strTruthy sig' = true <;> simp [transformBlock, hs, h2, h1']
          rw [hout, List.mem_singleton] at hmem
          injection hmem with h3 h4
          subst h3
          exact absurd ht h2
  | text t' => by_cases h : isSame = true <;> simp [transformBlock, h] at hmem
  | toolCall tc =>
    cases remap with
    | none => simp [transformBlock] at hmem
    | some f =>
      rcases hs : isSame with _ | _ <;> simp only [transformBlock, hs] at hmem
      · by_cases h : f tc.id model src ≠ tc.id <;> simp [h] at hmem
      · simp at hmem
  | otherBlock d => simp [transformBlock] at hmem

theorem thinking_in_transformContent (isSame : Bool) (remap : Option RemapFn)
    (model : ModelSpec) (src : AssistantMessage) :
    ∀ (blocks : List ContentBlock) (t : String) (sig : Option String),
      ContentBlock.thinking t sig ∈ (transformContent isSame remap model src blocks).1 →
      jsTrim t = "" → isSame = true ∧ strTruthy sig = true := by
  intro blocks
  induction blocks with
  | nil => intro t sig hmem _; simp [transformContent] at hmem
  | cons b rest ih =>
    intro t sig hmem ht
    simp only [transformContent, List.mem_append] at hmem
    rcases hmem with hmem | hmem
    · exact thinking_in_transformBlock isSame remap model src b t sig hmem ht
    · exact ih t sig hmem ht

theorem assistant_not_in_flush (now : Nat) (pending : List ToolCall) (seen : List String)
    (a : AssistantMessage) : Message.assistant a ∉ flushPending now pending seen := by
  simp [flushPending]

theorem thinking_in_transformGo (model : ModelSpec) (remap : Option RemapFn) (now : Nat) :
    ∀ (msgs : List Message) (st : NormState) (a : AssistantMessage),
      Message.assistant a ∈ transformGo model remap now msgs st →
      ∀ (t : String) (sig : Option String),
        ContentBlock.thinking t sig ∈ a.content → jsTrim t = "" →
        sameModel a model = true ∧ strTruthy sig = true := by
  intro msgs
  induction msgs with
  | nil => intro st a hmem; simp [transformGo] at hmem
  | cons m rest ih =>
    intro st a hmem t sig hb ht
    cases m with
    | user c ts =>
      by_cases hp : st.pending ≠ []
      · simp only [transformGo, if_pos hp, List.mem_append, List.mem_cons] at hmem
        rcases hmem with hmem | hmem | hmem
        · exact absurd hmem (assistant_not_in_flush _ _ _ _)
        · cases hmem
        · exact ih _ a hmem t sig hb ht
      · simp only [transformGo, if_neg hp, List.mem_cons] at hmem
        rcases hmem with hmem | hmem
        · cases hmem
        · exact ih _ a hmem t sig hb ht
    | toolResult r =>
      simp only [transformGo, List.mem_cons] at hmem
      rcases hmem with hmem | hmem
      · cases hmem
      · exact ih _ a hmem t sig hb ht
    | assistant a0 =>
      by_cases he : a0.stopReason = .error ∨ a0.stopReason = .aborted
      · simp only [transformGo, if_pos he, List.mem_append] at hmem
        rcases hmem with hmem | hmem
        · split at hmem
          · exact absurd hmem (assistant_not_in_flush _ _ _ _)
          · simp at hmem
        · exact ih _ a hmem t sig hb ht
      · simp only [transformGo, if_neg he, List.mem_append, List.mem_cons] at hmem
        rcases hmem with hmem | hmem | hmem
        · split at hmem
          · exact absurd hmem (assistant_not_in_flush _ _ _ _)
          · simp at hmem
        · cases hmem
          have hc := thinking_in_transformContent (sameModel a0 model) remap model a0
            a0.content t sig (by simpa [transformAssistant] using hb) ht
          refine ⟨?_, hc.2⟩
          have : sameModel { a0 with
              content := (transformContent (sameModel a0 model) remap model a0 a0.content).1 }
              model = sameModel a0 model := rfl
          rw [transformAssistant] at *
          simpa [sameModel] using hc.1
        · exact ih _ a hmem t sig hb ht
    | otherRole d =>
      simp only [transformGo, List.mem_cons] at hmem
      rcases hmem with hmem | hmem
      · cases hmem
      · exact ih _ a hmem t sig hb ht

/-- C2 amended: every empty/whitespace-only thinking block is dropped by
`transformMessages` *except* when its assistant message is same-model and the
block carries a non-empty `thinkingSignature` (in which case it is kept
verbatim for replay): any whitespace-only thinking block in the output sits in
a same-model message and has a non-empty signature. -/
theorem empty_thinking_amended (msgs : List Message) (model : ModelSpec)
    (remap : Option RemapFn) (now : Nat) (a : AssistantMessage)
    (ha : Message.assistant a ∈ transformMessages msgs model remap now)
    (t : String) (sig : Option String) (hb : ContentBlock.thinking t sig ∈ a.content)
    (ht : jsTrim t = "") : sameModel a model = true ∧ strTruthy sig = true :=
  thinking_in_transformGo model remap now msgs initState a ha t sig hb ht

/-- C2 amended witness: the counterexample message itself satisfies the
amended property — the surviving empty thinking block is same-model and
carries the signature `"sig_1"`. -/
theorem empty_thinking_amended_witness :
    sameModel (mkSameModel [.thinking "" (some "sig_1")] .stop) modelA = true ∧
      strTruthy (some "sig_1") = true :=
  empty_thinking_amended [Message.assistant (mkSameModel [.thinking "" (some "sig_1")] .stop)]
    modelA none 0 (mkSameModel [.thinking "" (some "sig_1")] .stop) (by decide)
    "" (some "sig_1") (by decide) (by decide)

/-!
### C6: same-model passthrough

The claim says same-model assistant content is returned byte-identical with
"no block dropped". The source drops a whitespace-only thinking block without
a (non-empty) signature even when same-model, so the claim fails; it holds
whenever every thinking block is non-blank or signed.
-/

/-- C6 counterexample: a same-model assistant message (stopReason `stop`)
whose single content block is a whitespace-only unsigned thinking block is
*not* returned byte-identical — the block is dropped. -/
theorem same_model_passthrough_counterexample :
    transformMessages [Message.assistant (mkSameModel [.thinking "   " none] .stop)]
        modelA none 0 =
      [Message.assistant (mkSameModel [] .stop)] ∧
    transformMessages [Message.assistant (mkSameModel [.thinking "   " none] .stop)]
        modelA none 0 ≠
      [Message.assistant (mkSameModel [.thinking "   " none] .stop)] := by
  constructor <;> decide

theorem transformBlock_sameModel (remap : Option RemapFn) (model : ModelSpec)
    (src : AssistantMessage) (b : ContentBlock) (hb : thinkingKept b) :
    transformBlock true remap model src b = ([b], []) := by
  cases b with
  | thinking t sig =>
    rcases hb with hb | hb
    · by_cases hsig : strTruthy sig = true <;> simp [transformBlock, hsig, hb]
    · simp [transformBlock, hb]
  | text t => simp [transformBlock]
  | toolCall tc => cases remap <;> simp [transformBlock]
  | otherBlock d => rfl

theorem transformContent_sameModel (remap : Option RemapFn) (model : ModelSpec)
    (src : AssistantMessage) :
    ∀ (blocks : List ContentBlock), (∀ b ∈ blocks, thinkingKept b) →
      transformContent true remap model src blocks = (blocks, []) := by
  intro blocks
  induction blocks with
  | nil => intro _; rfl
  | cons b rest ih =>
    intro h
    simp only [transformContent, transformBlock_sameModel remap model src b (h b (by simp)),
      ih (fun x hx => h x (by simp [hx]))]
    simp

/-- C6 amended: an assistant message whose recorded identity triple equals
the target model and whose `stopReason` is not `error`/`aborted` passes
through `transformMessages` byte-identical — no text change, no signature
stripping, no id remapping, no block dropped — *provided* each of its
thinking blocks has non-blank text or a non-empty `thinkingSignature`
(whitespace-only unsigned thinking blocks are dropped even same-model). -/
theorem same_model_passthrough (model : ModelSpec) (remap : Option RemapFn) (now : Nat)
    (a : AssistantMessage) (rest : List Message) (st : NormState)
    (hsame : sameModel a model = true)
    (hstop : a.stopReason ≠ .error ∧ a.stopReason ≠ .aborted)
    (hthink : ∀ b ∈ a.content, thinkingKept b) :
    transformGo model remap now (Message.assistant a :: rest) st =
      (if st.pending ≠ [] then flushPending now st.pending st.seen else []) ++
        Message.assistant a ::
          transformGo model remap now rest
            (if toolCallsOf a.content ≠ []
             then { idMap := st.idMap, pending := toolCallsOf a.content, seen := [] }
             else if st.pending ≠ [] then { st with pending := [], seen := [] } else st) := by
  have hta : transformAssistant model remap a = (a, []) := by
    unfold transformAssistant
    rw [hsame, transformContent_sameModel remap model a a.content hthink]
  have hne : ¬(a.stopReason = .error ∨ a.stopReason = .aborted) := by
    rintro (h | h)
    exacts [hstop.1 h, hstop.2 h]
  simp only [transformGo, if_neg hne, hta, applyAdds, List.foldl_nil]
  by_cases hp : st.pending ≠ [] <;> by_cases htc : toolCallsOf a.content ≠ [] <;>
    simp [hp, htc]

/-- C6 amended witness: a concrete same-model assistant turn with a signed
thinking block, text and a tool call passes through unchanged even though an
id-remap function is supplied. -/
theorem same_model_passthrough_witness :
    transformGo modelA (some (fun i _ _ => i ++ "_x")) 0
        [Message.assistant
          (mkSameModel [.thinking "hm" (some "s"), .text "ok", .toolCall tcA] .toolUse)]
        initState =
      [Message.assistant
        (mkSameModel [.thinking "hm" (some "s"), .text "ok", .toolCall tcA] .toolUse)] := by
  have h := same_model_passthrough modelA (some (fun i _ _ => i ++ "_x")) 0
    (mkSameModel [.thinking "hm" (some "s"), .text "ok", .toolCall tcA] .toolUse)
    [] initState (by decide) (by decide) (by decide)
  simpa [initState] using h

/-!
### C1: orphan repair at an interrupting user message
-/

theorem rewriteToolResult_nil (r : ToolResultMessage) : rewriteToolResult [] r = r := rfl

/-- A run of tool-result messages passes through unchanged when the id map is
empty, accumulating exactly their ids into `existingToolResultIds`. -/
theorem transformGo_toolResults (model : ModelSpec) (remap : Option RemapFn) (now : Nat) :
    ∀ (rs : List ToolResultMessage) (rest : List Message) (st : NormState),
      st.idMap = [] →
      transformGo model remap now (rs.map Message.toolResult ++ rest) st =
        rs.map Message.toolResult ++
          transformGo model remap now rest
            { st with seen := st.seen ++ rs.map (·.toolCallId) } := by
  intro rs
  induction rs with
  | nil => intro rest st _; simp
  | cons r rs' ih =>
    intro rest st hmap
    obtain ⟨m0, p0, s0⟩ := st
    simp only at hmap
    subst hmap
    simp only [List.map_cons, List.cons_append, transformGo, rewriteToolResult_nil,
      List.append_eq]
    rw [ih rest ⟨[], p0, s0 ++ [r.toolCallId]⟩ rfl]
    simp [List.append_assoc]

/-- The assistant step of the pass, from a state with no pending batch and a
non-errored message: emit the transformed message, extend the id map, and
start a new pending batch iff the transformed content retains tool calls. -/
theorem transformGo_assistant_step (model : ModelSpec) (remap : Option RemapFn) (now : Nat)
    (a : AssistantMessage) (rest : List Message) (st : NormState)
    (hne : ¬(a.stopReason = .error ∨ a.stopReason = .aborted)) (hp : st.pending = []) :
    transformGo model remap now (Message.assistant a :: rest) st =
      Message.assistant (transformAssistant model remap a).1 ::
        transformGo model remap now rest
          (if toolCallsOf (transformAssistant model remap a).1.content ≠ []
           then { idMap := applyAdds st.idMap (transformAssistant model remap a).2,
                  pending := toolCallsOf (transformAssistant model remap a).1.content,
                  seen := [] }
           else { st with idMap := applyAdds st.idMap (transformAssistant model remap a).2 }) := by
  rcases hTA : transformAssistant model remap a with ⟨a1, adds⟩
  by_cases htc : toolCallsOf a1.content ≠ [] <;>
    simp [transformGo, hp, hne, hTA, htc]

theorem transformBlock_adds_none (isSame : Bool) (model : ModelSpec)
    (src : AssistantMessage) (b : ContentBlock) :
    (transformBlock isSame none model src b).2 = [] := by
  cases b with
  | thinking t sig =>
    by_cases hs : isSame = true <;> by_cases hsig : strTruthy sig = true <;>
      by_cases h2 : jsTrim t = "" <;> simp [transformBlock, hs, hsig, h2]
  | text t => by_cases hs : isSame = true <;> simp [transformBlock, hs]
  | toolCall tc => simp [transformBlock]
  | otherBlock d => rfl

theorem transformContent_adds_none (isSame : Bool) (model : ModelSpec)
    (src : AssistantMessage) :
    ∀ blocks, (transformContent isSame none model src blocks).2 = [] := by
  intro blocks
  induction blocks with
  | nil => rfl
  | cons b rest ih =>
    simp only [transformContent, transformBlock_adds_none, List.nil_append, ih]

theorem transformBlock_ids_none (isSame : Bool) (model : ModelSpec)
    (src : AssistantMessage) (b : ContentBlock) :
    (toolCallsOf (transformBlock isSame none model src b).1).map (·.id) =
      (toolCallsOf [b]).map (·.id) := by
  cases b with
  | thinking t sig =>
    by_cases hs : isSame = true <;> by_cases hsig : strTruthy sig = true <;>
      by_cases h2 : jsTrim t = "" <;> simp [transformBlock, hs, hsig, h2, toolCallsOf]
  | text t => by_cases hs : isSame = true <;> simp [transformBlock, hs, toolCallsOf]
  | toolCall tc =>
    by_cases h : (!isSame && strTruthy tc.thoughtSignature) = true <;>
      simp [transformBlock, h, toolCallsOf]
  | otherBlock d => simp [transformBlock, toolCallsOf]

theorem toolCallsOf_append (xs ys : List ContentBlock) :
    toolCallsOf (xs ++ ys) = toolCallsOf xs ++ toolCallsOf ys := by
  simp [toolCallsOf]

/-- With no id-remap function, the transformed content has tool calls with
exactly the original ids (in order); only `thoughtSignature` stripping can
occur. -/
theorem transformContent_ids_none (isSame : Bool) (model : ModelSpec)
    (src : AssistantMessage) :
    ∀ blocks, (toolCallsOf (transformContent isSame none model src blocks).1).map (·.id) =
      (toolCallsOf blocks).map (·.id) := by
  intro blocks
  induction blocks with
  | nil => rfl
  | cons b rest ih =>
    have hb := transformBlock_ids_none isSame model src b
    have hsplit : toolCallsOf (b :: rest) = toolCallsOf [b] ++ toolCallsOf rest := by
      rw [← toolCallsOf_append]
      rfl
    simp only [transformContent, toolCallsOf_append, List.map_append, ih, hb, hsplit]

theorem length_filter_sub {α : Type} (p : α → Bool) (l : List α) :
    (l.filter (fun x => !p x)).length = l.length - l.countP p := by
  induction l with
  | nil => rfl
  | cons x xs ih =>
    have hle : xs.countP p ≤ xs.length := List.countP_le_length p
    cases hx : p x <;> (simp [List.filter_cons, List.countP_cons, hx, ih]; try omega)

/-- C1: for a message sequence in which an assistant turn with `N ≥ 1` tool
calls is followed by some tool-result messages and then an interrupting user
message, `transformMessages` (with no id remap) passes the assistant message
and the tool results through, inserts the synthetic failed results
`flushPending` — one `isError: true` placeholder result per unanswered tool
call, in original tool-call order — immediately before the user message,
passes the user message through unchanged, and continues from a cleared
batch state. The number of synthetic results is exactly `N − k` where `k`
counts the tool calls with a matching result, and the tool-call ids are the
original ones. -/
theorem orphan_repair (model : ModelSpec) (now : Nat) (a : AssistantMessage)
    (rs : List ToolResultMessage) (u : String) (ut : Nat) (rest : List Message)
    (hstop : a.stopReason ≠ .error ∧ a.stopReason ≠ .aborted)
    (hN : toolCallsOf (transformAssistant model none a).1.content ≠ []) :
    transformMessages
        (Message.assistant a :: (rs.map Message.toolResult ++ (Message.user u ut :: rest)))
        model none now =
      Message.assistant (transformAssistant model none a).1 ::
        (rs.map Message.toolResult ++
          (flushPending now (toolCallsOf (transformAssistant model none a).1.content)
              (rs.map (·.toolCallId)) ++
            (Message.user u ut :: transformGo model none now rest initState))) ∧
      (flushPending now (toolCallsOf (transformAssistant model none a).1.content)
          (rs.map (·.toolCallId))).length =
        (toolCallsOf (transformAssistant model none a).1.content).length -
          (toolCallsOf (transformAssistant model none a).1.content).countP
            (fun tc => decide (tc.id ∈ rs.map (·.toolCallId))) ∧
      (toolCallsOf (transformAssistant model none a).1.content).map (·.id) =
        (toolCallsOf a.content).map (·.id) := by
  have hne : ¬(a.stopReason = .error ∨ a.stopReason = .aborted) := by
    rintro (h | h)
    exacts [hstop.1 h, hstop.2 h]
  have hpair : transformAssistant model none a = ((transformAssistant model none a).1, []) := by
    simp [transformAssistant, transformContent_adds_none]
  have hadds : (transformAssistant model none a).2 = [] := by
    simp [transformAssistant, transformContent_adds_none]
  refine ⟨?_, ?_, ?_⟩
  · rw [transformMessages,
      transformGo_assistant_step model none now a _ initState hne rfl, if_pos hN, hadds]
    rw [transformGo_toolResults model none now rs _
      ⟨applyAdds initState.idMap [], toolCallsOf (transformAssistant model none a).1.content, []⟩
      rfl]
    conv_lhs =>
      rw [transformGo]
    rw [if_pos (show (⟨applyAdds initState.idMap [],
        toolCallsOf (transformAssistant model none a).1.content,
        [] ++ rs.map (·.toolCallId)⟩ : NormState).pending ≠ [] from hN)]
    simp [initState, applyAdds]
  · have hfil : (toolCallsOf (transformAssistant model none a).1.content).filter
        (fun tc => decide (tc.id ∉ rs.map (·.toolCallId))) =
      (toolCallsOf (transformAssistant model none a).1.content).filter
        (fun tc => !decide (tc.id ∈ rs.map (·.toolCallId))) := by
      apply List.filter_congr
      intro tc _
      simp only [decide_not]
    rw [flushPending, List.length_map, hfil, length_filter_sub]
  · have : (transformAssistant model none a).1.content =
        (transformContent (sameModel a model) none model a a.content).1 := by
      simp [transformAssistant]
    rw [this, transformContent_ids_none]

/-- C1 witness: an assistant turn with two tool calls of which one is
answered before the interrupting user message gets exactly one synthetic
failed result (`N − k = 2 − 1`), with `isError: true` and the placeholder
text, inserted immediately before the user message, which passes through
unchanged. -/
theorem orphan_repair_witness :
    transformMessages
        [Message.assistant (mkSameModel [.text "two things", .toolCall tcA, .toolCall tcB]
          .toolUse),
          Message.toolResult trA, Message.user "actually stop" 9]
        modelA none 3 =
      [Message.assistant (mkSameModel [.text "two things", .toolCall tcA, .toolCall tcB]
          .toolUse),
        Message.toolResult trA, Message.toolResult (syntheticToolResult 3 tcB),
        Message.user "actually stop" 9] ∧
      (flushPending 3
          (toolCallsOf (transformAssistant modelA none
            (mkSameModel [.text "two things", .toolCall tcA, .toolCall tcB] .toolUse)).1.content)
          ([trA].map (·.toolCallId))).length = 2 - 1 := by
  have h := orphan_repair modelA 3
    (mkSameModel [.text "two things", .toolCall tcA, .toolCall tcB] .toolUse)
    [trA] "actually stop" 9 [] (by decide) (by decide)
  exact ⟨h.1.trans (by decide), h.2.1.trans (by decide)⟩

/-!
### C4: id-remap consistency across the pass

The claim quantifies over *every* different remapped id `b`. The source
rewrites a tool-result id only when the mapped id is truthy
(`normalizedId && normalizedId !== msg.toolCallId`), so a remap to the empty
string is recorded in the map (and applied to the tool-call block itself) but
never applied to later tool-results. The amended claim requires `b`
non-empty.
-/

/-- C4 counterexample: with `idRemap` mapping every id to `""` (a different
id), the cross-model tool call itself is rewritten to `""`, but the later
tool-result referencing `"a"` is *not* rewritten: it appears in the output
still referencing `"a"`, not `""`. -/
theorem idremap_consistency_counterexample :
    transformMessages [Message.assistant (mkCrossModel [.toolCall tcIdA] .toolUse),
        Message.toolResult trIdA] modelA (some (fun _ _ _ => "")) 0 =
      [Message.assistant (mkCrossModel [.toolCall { tcIdA with id := "" }] .toolUse),
        Message.toolResult trIdA] ∧
      Message.toolResult { trIdA with toolCallId := "" } ∉
        transformMessages [Message.assistant (mkCrossModel [.toolCall tcIdA] .toolUse),
          Message.toolResult trIdA] modelA (some (fun _ _ _ => "")) 0 := by
  constructor <;> decide

theorem transformBlock_adds_val (isSame : Bool) (f : RemapFn) (model : ModelSpec)
    (src : AssistantMessage) (blk : ContentBlock) (k v : String)
    (hmem : (k, v) ∈ (transformBlock isSame (some f) model src blk).2) :
    v = f k model src := by
  cases blk with
  | thinking t sig =>
    by_cases hs : isSame = true <;> by_cases hsig : strTruthy sig = true <;>
      by_cases h2 : jsTrim t = "" <;> simp [transformBlock, hs, hsig, h2] at hmem
  | text t => by_cases hs : isSame = true <;> simp [transformBlock, hs] at hmem
  | toolCall tc =>
    rcases hs : isSame with _ | _
    · by_cases hid : f tc.id model src ≠ tc.id
      · simp [transformBlock, hs, hid] at hmem
        obtain ⟨h1, h2⟩ := hmem
        rw [h1]
        exact h2
      · simp [transformBlock, hs, hid] at hmem
    · simp [transformBlock, hs] at hmem
  | otherBlock d => simp [transformBlock] at hmem

theorem transformContent_adds_val (isSame : Bool) (f : RemapFn) (model : ModelSpec)
    (src : AssistantMessage) :
    ∀ (blocks : List ContentBlock) (k v : String),
      (k, v) ∈ (transformContent isSame (some f) model src blocks).2 →
      v = f k model src := by
  intro blocks
  induction blocks with
  | nil => intro k v hmem; simp [transformContent] at hmem
  | cons b rest ih =>
    intro k v hmem
    simp only [transformContent, List.mem_append] at hmem
    rcases hmem with hmem | hmem
    · exact transformBlock_adds_val isSame f model src b k v hmem
    · exact ih k v hmem

theorem transformAssistant_adds_val (f : RemapFn) (model : ModelSpec)
    (src : AssistantMessage) (k v : String)
    (hmem : (k, v) ∈ (transformAssistant model (some f) src).2) :
    v = f k model src := by
  have : (transformAssistant model (some f) src).2 =
      (transformContent (sameModel src model) (some f) model src src.content).2 := by
    simp [transformAssistant]
  rw [this] at hmem
  exact transformContent_adds_val _ f model src src.content k v hmem

theorem idLookup_applyAdds_inv (a b : String) :
    ∀ (adds m : List (String × String)),
      (∀ k v, (k, v) ∈ adds → k = a → v = b) →
      (idLookup m a = none ∨ idLookup m a = some b) →
      (idLookup (applyAdds m adds) a = none ∨ idLookup (applyAdds m adds) a = some b) := by
  intro adds
  induction adds with
  | nil => intro m _ hm; exact hm
  | cons kv rest ih =>
    intro m hall hm
    obtain ⟨k, v⟩ := kv
    show idLookup (applyAdds ((k, v) :: m) rest) a = none ∨
      idLookup (applyAdds ((k, v) :: m) rest) a = some b
    apply ih
    · intro k' v' h' hk
      exact hall k' v' (by simp [h']) hk
    · by_cases hk : k = a
      · right
        have hv : v = b := hall k v (by simp) hk
        simp [idLookup, hk, hv]
      · simpa [idLookup, hk] using hm

theorem idLookup_applyAdds_pos (a b : String) :
    ∀ (adds m : List (String × String)),
      (∀ k v, (k, v) ∈ adds → k = a → v = b) →
      idLookup m a = some b → idLookup (applyAdds m adds) a = some b := by
  intro adds
  induction adds with
  | nil => intro m _ hm; exact hm
  | cons kv rest ih =>
    intro m hall hm
    obtain ⟨k, v⟩ := kv
    show idLookup (applyAdds ((k, v) :: m) rest) a = some b
    apply ih
    · intro k' v' h' hk
      exact hall k' v' (by simp [h']) hk
    · by_cases hk : k = a
      · have hv : v = b := hall k v (by simp) hk
        simp [idLookup, hk, hv]
      · simpa [idLookup, hk] using hm

theorem idLookup_applyAdds_nokey (a : String) :
    ∀ (adds m : List (String × String)), (∀ kv ∈ adds, kv.1 ≠ a) →
      idLookup (applyAdds m adds) a = idLookup m a := by
  intro adds
  induction adds with
  | nil => intro m _; rfl
  | cons kv rest ih =>
    intro m hall
    obtain ⟨k, v⟩ := kv
    show idLookup (applyAdds ((k, v) :: m) rest) a = idLookup m a
    rw [ih ((k, v) :: m) (fun kv' h' => hall kv' (by simp [h']))]
    have hk : k ≠ a := hall (k, v) (by simp)
    simp [idLookup, hk]

theorem idLookup_applyAdds_mem (a b : String) :
    ∀ (adds m : List (String × String)),
      (∀ k v, (k, v) ∈ adds → k = a → v = b) →
      (∃ v, (a, v) ∈ adds) →
      idLookup (applyAdds m adds) a = some b := by
  intro adds
  induction adds with
  | nil => intro m _ hex; simp at hex
  | cons kv rest ih =>
    intro m hall hex
    obtain ⟨k, v⟩ := kv
    show idLookup (applyAdds ((k, v) :: m) rest) a = some b
    by_cases hrest : ∃ v', (a, v') ∈ rest
    · exact ih ((k, v) :: m) (fun k' v' h' hk => hall k' v' (by simp [h']) hk) hrest
    · obtain ⟨v0, hv0⟩ := hex
      rcases List.mem_cons.mp hv0 with heq | hmem
      · have hka : k = a := by
          cases heq
          rfl
        have hv : v = b := hall k v (by simp) hka
        rw [idLookup_applyAdds_nokey a rest ((k, v) :: m)
          (fun kv' h' => by
            intro hk'
            exact hrest ⟨kv'.2, by rw [← hk']; simpa using h'⟩)]
        simp [idLookup, hka, hv]
      · exact absurd ⟨v0, hmem⟩ hrest

theorem content_add_mem (f : RemapFn) (model : ModelSpec) (src : AssistantMessage)
    (a b : String) (hfa : ∀ s, f a model s = b) (hab : b ≠ a) :
    ∀ (blocks : List ContentBlock),
      a ∈ (toolCallsOf blocks).map (·.id) →
      (a, b) ∈ (transformContent false (some f) model src blocks).2 := by
  intro blocks
  induction blocks with
  | nil => intro h; simp [toolCallsOf] at h
  | cons blk rest ih =>
    intro h
    simp only [transformContent, List.mem_append]
    cases blk with
    | toolCall tc =>
      by_cases hta : tc.id = a
      · left
        subst hta
        have hnid : f tc.id model src = b := hfa src
        have hne : f tc.id model src ≠ tc.id := by
          rw [hnid]
          exact hab
        simp [transformBlock, hnid, hab]
      · right
        apply ih
        have hsplit : toolCallsOf (ContentBlock.toolCall tc :: rest) =
            tc :: toolCallsOf rest := by simp [toolCallsOf]
        rw [hsplit] at h
        simp only [List.map_cons, List.mem_cons] at h
        rcases h with h | h
        · exact absurd h.symm hta
        · exact h
    | thinking t sig =>
      right
      apply ih
      simpa [toolCallsOf] using h
    | text t =>
      right
      apply ih
      simpa [toolCallsOf] using h
    | otherBlock d =>
      right
      apply ih
      simpa [toolCallsOf] using h

theorem src_add_mem (f : RemapFn) (model : ModelSpec) (src : AssistantMessage)
    (a b : String) (hfa : ∀ s, f a model s = b) (hab : b ≠ a)
    (hcross : sameModel src model = false)
    (hhas : a ∈ (toolCallsOf src.content).map (·.id)) :
    (a, b) ∈ (transformAssistant model (some f) src).2 := by
  have : (transformAssistant model (some f) src).2 =
      (transformContent (sameModel src model) (some f) model src src.content).2 := by
    simp [transformAssistant]
  rw [this, hcross]
  exact content_add_mem f model src a b hfa hab src.content hhas

/-- Once the id map binds `a` to `b`, every later input tool-result message
referencing `a` appears in the output referencing `b`. -/
theorem lookup_some_b_mem (model : ModelSpec) (f : RemapFn) (now : Nat)
    (a b : String) (tr : ToolResultMessage)
    (hfa : ∀ s, f a model s = b) (hab : b ≠ a) (hbne : b ≠ "")
    (hid : tr.toolCallId = a) :
    ∀ (post : List Message) (st : NormState),
      idLookup st.idMap a = some b →
      Message.toolResult tr ∈ post →
      Message.toolResult { tr with toolCallId := b } ∈
        transformGo model (some f) now post st := by
  intro post
  induction post with
  | nil => intro st _ hmem; simp at hmem
  | cons m rest ih =>
    intro st hst hmem
    rcases List.mem_cons.mp hmem with heq | hmem2
    · -- the head is the tool-result itself: it is rewritten to `b`
      subst heq
      have hrw : rewriteToolResult st.idMap tr = { tr with toolCallId := b } := by
        rw [rewriteToolResult, hid, hst]
        simp [hbne, hab]
      simp only [transformGo, hrw]
      exact List.mem_cons_self _ _
    · cases m with
      | user c t =>
        simp only [transformGo]
        split_ifs with hp
        · simp only [List.mem_append, List.mem_cons]
          right; right
          exact ih _ hst hmem2
        · simp only [List.mem_cons]
          right
          exact ih st hst hmem2
      | toolResult r =>
        simp only [transformGo, List.mem_cons]
        right
        exact ih _ hst hmem2
      | assistant m0 =>
        by_cases he : m0.stopReason = .error ∨ m0.stopReason = .aborted
        · simp only [transformGo, if_pos he]
          split_ifs with hp <;> rw [List.mem_append] <;> right
          · exact ih _ hst hmem2
          · exact ih st hst hmem2
        · rcases hTA : transformAssistant model (some f) m0 with ⟨a1, adds⟩
          have hadds : ∀ k v, (k, v) ∈ adds → k = a → v = b := by
            intro k v hkv hk
            have := transformAssistant_adds_val f model m0 k v (by rw [hTA]; exact hkv)
            rw [this, hk, hfa]
          simp only [transformGo, if_neg he, hTA]
          split_ifs <;>
            (simp only [List.mem_append, List.mem_cons]
             right; right
             exact ih _ (idLookup_applyAdds_pos a b adds _ hadds hst) hmem2)
      | otherRole d =>
        simp only [transformGo, List.mem_cons]
        right
        exact ih st hst hmem2

/-- C4 amended: if the supplied `idRemap` maps a cross-model assistant
message's tool-call id `a` to a different *non-empty* id `b` (uniformly in
the source message), then every tool-result message appearing after that
assistant message in the pass appears in the output with its `toolCallId`
rewritten from `a` to `b` — the id map persists for the whole pass, across
user-message flush points. (The non-emptiness proviso is forced by the
source's truthiness test on the mapped id; see the counterexample.) -/
theorem idremap_consistency (model : ModelSpec) (f : RemapFn) (now : Nat)
    (a b : String) (pre post : List Message) (src : AssistantMessage)
    (tr : ToolResultMessage)
    (hfa : ∀ s, f a model s = b) (hab : b ≠ a) (hbne : b ≠ "")
    (hsrc : src.stopReason ≠ .error ∧ src.stopReason ≠ .aborted)
    (hcross : sameModel src model = false)
    (hhas : a ∈ (toolCallsOf src.content).map (·.id))
    (htr : Message.toolResult tr ∈ post) (hid : tr.toolCallId = a) :
    Message.toolResult { tr with toolCallId := b } ∈
      transformMessages (pre ++ Message.assistant src :: post) model (some f) now := by
  have hne : ¬(src.stopReason = .error ∨ src.stopReason = .aborted) := by
    rintro (h | h)
    exacts [hsrc.1 h, hsrc.2 h]
  suffices h : ∀ (pre' : List Message) (st : NormState),
      (idLookup st.idMap a = none ∨ idLookup st.idMap a = some b) →
      Message.toolResult { tr with toolCallId := b } ∈
        transformGo model (some f) now (pre' ++ Message.assistant src :: post) st by
    exact h pre initState (Or.inl rfl)
  intro pre'
  induction pre' with
  | nil =>
    intro st hinv
    rcases hTA : transformAssistant model (some f) src with ⟨a1, adds⟩
    have hadds : ∀ k v, (k, v) ∈ adds → k = a → v = b := by
      intro k v hkv hk
      have := transformAssistant_adds_val f model src k v (by rw [hTA]; exact hkv)
      rw [this, hk, hfa]
    have hmem : (a, b) ∈ adds := by
      have := src_add_mem f model src a b hfa hab hcross hhas
      rw [hTA] at this
      exact this
    simp only [List.nil_append, transformGo, if_neg hne, hTA]
    split_ifs <;>
      (simp only [List.mem_append, List.mem_cons]
       right; right
       exact lookup_some_b_mem model f now a b tr hfa hab hbne hid post _
         (idLookup_applyAdds_mem a b adds _ hadds ⟨b, hmem⟩) htr)
  | cons m pre'' ih =>
    intro st hinv
    cases m with
    | user c t =>
      simp only [List.cons_append, transformGo]
      split_ifs with hp
      · simp only [List.mem_append, List.mem_cons]
        right; right
        exact ih _ hinv
      · simp only [List.mem_cons]
        right
        exact ih st hinv
    | toolResult r =>
      simp only [List.cons_append, transformGo, List.mem_cons]
      right
      exact ih _ hinv
    | assistant m0 =>
      by_cases he : m0.stopReason = .error ∨ m0.stopReason = .aborted
      · simp only [List.cons_append, transformGo, if_pos he]
        split_ifs with hp <;> rw [List.mem_append] <;> right
        · exact ih _ hinv
        · exact ih st hinv
      · rcases hTA : transformAssistant model (some f) m0 with ⟨a1, adds⟩
        have hadds : ∀ k v, (k, v) ∈ adds → k = a → v = b := by
          intro k v hkv hk
          have := transformAssistant_adds_val f model m0 k v (by rw [hTA]; exact hkv)
          rw [this, hk, hfa]
        simp only [List.cons_append, transformGo, if_neg he, hTA]
        split_ifs <;>
          (simp only [List.mem_append, List.mem_cons]
           right; right
           exact ih _ (idLookup_applyAdds_inv a b adds _ hadds hinv))
    | otherRole d =>
      simp only [List.cons_append, transformGo, List.mem_cons]
      right
      exact ih st hinv

/-- C4 amended witness: remapping `"a"` to `"a_norm"` on a cross-model
assistant message rewrites the tool-result for `"a"` that arrives after a
user-message flush point later in the pass. -/
theorem idremap_consistency_witness :
    Message.toolResult { trIdA with toolCallId := "a_norm" } ∈
      transformMessages
        [Message.assistant (mkCrossModel [.toolCall tcIdA] .toolUse),
          Message.user "interrupt" 1, Message.toolResult trIdA]
        modelA (some (fun _ _ _ => "a_norm")) 0 :=
  idremap_consistency modelA (fun _ _ _ => "a_norm") 0 "a" "a_norm" []
    [Message.user "interrupt" 1, Message.toolResult trIdA]
    (mkCrossModel [.toolCall tcIdA] .toolUse) trIdA
    (fun _ => rfl) (by decide) (by decide) (by decide) (by decide) (by decide)
    (by decide) (by decide)

/-!
### Renderer lemmas (shared by C7, C8, C9)
-/

theorem poolLookup_replace_other (key k : PoolKey) (md : Markdown) (h : k ≠ key) :
    ∀ pool, poolLookup (poolReplace pool key md) k = poolLookup pool k := by
  intro pool
  induction pool with
  | nil => rfl
  | cons e rest ih =>
    obtain ⟨k0, v0⟩ := e
    by_cases hk : k0 = key
    · subst hk
      simp [poolReplace, poolLookup, Ne.symm h]
    · simp [poolReplace, poolLookup, hk, ih]

theorem poolLookup_replace_self (key : PoolKey) (md : Markdown) :
    ∀ pool v, poolLookup pool key = some v →
      poolLookup (poolReplace pool key md) key = some md := by
  intro pool
  induction pool with
  | nil => intro v h; simp [poolLookup] at h
  | cons e rest ih =>
    intro v h
    obtain ⟨k0, v0⟩ := e
    by_cases hk : k0 = key
    · simp [poolReplace, poolLookup, hk]
    · simp only [poolLookup, if_neg hk] at h
      simp only [poolReplace, if_neg hk, poolLookup, if_neg hk]
      exact ih v h

theorem poolReplace_self (key : PoolKey) :
    ∀ pool md, poolLookup pool key = some md → poolReplace pool key md = pool := by
  intro pool
  induction pool with
  | nil => intro md h; simp [poolLookup] at h
  | cons e rest ih =>
    intro md h
    obtain ⟨k0, v0⟩ := e
    by_cases hk : k0 = key
    · subst hk
      have h' : v0 = md := by simpa [poolLookup] using h
      subst h'
      simp [poolReplace]
    · simp only [poolLookup, if_neg hk] at h
      simp [poolReplace, hk, ih md h]

theorem poolLookup_append_other (key k : PoolKey) (md : Markdown) (h : k ≠ key) :
    ∀ pool, poolLookup (pool ++ [(key, md)]) k = poolLookup pool k := by
  intro pool
  induction pool with
  | nil => simp [poolLookup, Ne.symm h]
  | cons e rest ih =>
    obtain ⟨k0, v0⟩ := e
    by_cases hk : k0 = k <;> simp [poolLookup, hk, ih]

theorem poolLookup_append_self (key : PoolKey) (md : Markdown) :
    ∀ pool, poolLookup pool key = none →
      poolLookup (pool ++ [(key, md)]) key = some md := by
  intro pool
  induction pool with
  | nil => intro _; simp [poolLookup]
  | cons e rest ih =>
    intro h
    obtain ⟨k0, v0⟩ := e
    by_cases hk : k0 = key
    · simp [poolLookup, hk] at h
    · simp only [poolLookup, if_neg hk] at h
      simp only [List.cons_append, poolLookup, if_neg hk]
      exact ih h

theorem getMarkdown_out (pool : List (PoolKey × Markdown)) (nid : Nat) (key : PoolKey)
    (d : String) (md : Markdown) (P1 : List (PoolKey × Markdown)) (n1 : Nat)
    (h : getMarkdown pool nid key d = (md, P1, n1)) :
    poolLookup P1 key = some md ∧ md.text = d := by
  unfold getMarkdown at h
  cases hl : poolLookup pool key with
  | some md0 =>
    rw [hl] at h
    injection h with h1 h2
    injection h2 with h2a h2b
    subst h1
    subst h2a
    exact ⟨poolLookup_replace_self key _ pool md0 hl, rfl⟩
  | none =>
    rw [hl] at h
    injection h with h1 h2
    injection h2 with h2a h2b
    subst h1
    subst h2a
    exact ⟨poolLookup_append_self key _ pool hl, rfl⟩

theorem getMarkdown_lookup_other (pool : List (PoolKey × Markdown)) (nid : Nat)
    (key k : PoolKey) (d : String) (h : k ≠ key) :
    poolLookup (getMarkdown pool nid key d).2.1 k = poolLookup pool k := by
  unfold getMarkdown
  cases hl : poolLookup pool key with
  | some md0 => exact poolLookup_replace_other key k _ h pool
  | none => exact poolLookup_append_other key k _ h pool

theorem getMarkdown_stable (pool : List (PoolKey × Markdown)) (nid : Nat) (key : PoolKey)
    (md : Markdown) (hl : poolLookup pool key = some md) :
    getMarkdown pool nid key md.text = (md, pool, nid) := by
  unfold getMarkdown
  rw [hl]
  show ({ md with text := md.text }, poolReplace pool key { md with text := md.text }, nid) =
    (md, pool, nid)
  have hmd : { md with text := md.text } = md := rfl
  rw [hmd, poolReplace_self key pool md hl]

theorem mdTextsOf_errorNotice (m : AssistantMessage) : mdTextsOf (errorNotice m) = [] := by
  unfold errorNotice
  split_ifs
  · rfl
  · cases m.stopReason <;> simp [mdTextsOf]

/-- The markdown texts produced by the block-rendering loop (with thinking
blocks shown) are exactly the per-block display texts, independent of the
pool state. -/
theorem renderBlocks_mdTexts (s : Bool) :
    ∀ (bs : List ContentBlock) (i : Nat) (pool : List (PoolKey × Markdown)) (nid : Nat),
      mdTextsOf (renderBlocks s false i bs pool nid).1 = expectedMdTexts s bs := by
  intro bs
  induction bs with
  | nil => intro i pool nid; rfl
  | cons b rest ih =>
    intro i pool nid
    cases b with
    | text t =>
      by_cases h1 : jsTrim t ≠ ""
      · by_cases h2 : displayTextOf s t ≠ ""
        · rcases hgm : getMarkdown pool nid (PoolKey.text i) (displayTextOf s t)
            with ⟨md, P1, n1⟩
          rcases hrb : renderBlocks s false (i + 1) rest P1 n1 with ⟨us, P2, n2⟩
          have hmd : md.text = displayTextOf s t := (getMarkdown_out _ _ _ _ _ _ _ hgm).2
          have hus : mdTextsOf us = expectedMdTexts s rest := by
            have h := ih (i + 1) P1 n1
            rw [hrb] at h
            exact h
          simp only [renderBlocks, if_pos h1, if_pos h2, hgm, hrb]
          have hhead : expectedMdTexts s (ContentBlock.text t :: rest) =
              displayTextOf s t :: expectedMdTexts s rest := by
            simp [expectedMdTexts, h1, h2]
          rw [hhead, ← hus, ← hmd]
          rfl
        · simp only [renderBlocks, if_pos h1, if_neg h2]
          rw [ih (i + 1) pool nid]
          simp [expectedMdTexts, h1, h2]
      · simp only [renderBlocks, if_neg h1]
        rw [ih (i + 1) pool nid]
        simp [expectedMdTexts, h1]
    | thinking t sig =>
      by_cases h1 : jsTrim t ≠ ""
      · by_cases h2 : displayTextOf s t ≠ ""
        · rcases hgm : getMarkdown pool nid (PoolKey.thinking i) (displayTextOf s t)
            with ⟨md, P1, n1⟩
          rcases hrb : renderBlocks s false (i + 1) rest P1 n1 with ⟨us, P2, n2⟩
          have hmd : md.text = displayTextOf s t := (getMarkdown_out _ _ _ _ _ _ _ hgm).2
          have hus : mdTextsOf us = expectedMdTexts s rest := by
            have h := ih (i + 1) P1 n1
            rw [hrb] at h
            exact h
          simp only [renderBlocks, if_pos h1, if_pos h2, hgm, hrb, Bool.false_eq_true,
            if_false]
          have hhead : expectedMdTexts s (ContentBlock.thinking t sig :: rest) =
              displayTextOf s t :: expectedMdTexts s rest := by
            simp [expectedMdTexts, h1, h2]
          rw [hhead, ← hus, ← hmd]
          by_cases h3 : rest.any isVisibleBlock <;> simp [h3, mdTextsOf]
        · rcases hrb : renderBlocks s false (i + 1) rest pool nid with ⟨us, P2, n2⟩
          have hus : mdTextsOf us = expectedMdTexts s rest := by
            have h := ih (i + 1) pool nid
            rw [hrb] at h
            exact h
          simp only [renderBlocks, if_pos h1, if_neg h2, hrb, Bool.false_eq_true, if_false]
          have hhead : expectedMdTexts s (ContentBlock.thinking t sig :: rest) =
              expectedMdTexts s rest := by
            simp [expectedMdTexts, h1, h2]
          rw [hhead, ← hus]
          by_cases h3 : rest.any isVisibleBlock <;> simp [h3, mdTextsOf]
      · simp only [renderBlocks, if_neg h1]
        rw [ih (i + 1) pool nid]
        simp [expectedMdTexts, h1]
    | toolCall tc =>
      simp only [renderBlocks]
      rw [ih (i + 1) pool nid]
      simp [expectedMdTexts]
    | otherBlock d =>
      simp only [renderBlocks]
      rw [ih (i + 1) pool nid]
      simp [expectedMdTexts]

/-- The block loop only writes pool keys whose content index is at least its
starting index: lower-indexed entries are untouched. -/
theorem renderBlocks_lookup_lower (s h : Bool) :
    ∀ (bs : List ContentBlock) (i : Nat) (pool : List (PoolKey × Markdown)) (nid : Nat)
      (k : PoolKey), k.idx < i →
      poolLookup (renderBlocks s h i bs pool nid).2.1 k = poolLookup pool k := by
  intro bs
  induction bs with
  | nil => intro i pool nid k _; rfl
  | cons b rest ih =>
    intro i pool nid k hk
    have hk1 : k.idx < i + 1 := Nat.lt_succ_of_lt hk
    have hktext : k ≠ PoolKey.text i := by
      intro he
      rw [he] at hk
      exact absurd rfl (Nat.ne_of_lt hk)
    have hkthink : k ≠ PoolKey.thinking i := by
      intro he
      rw [he] at hk
      exact absurd rfl (Nat.ne_of_lt hk)
    cases b with
    | text t =>
      by_cases h1 : jsTrim t ≠ ""
      · by_cases h2 : displayTextOf s t ≠ ""
        · rcases hgm : getMarkdown pool nid (PoolKey.text i) (displayTextOf s t)
            with ⟨md, P1, n1⟩
          rcases hrb : renderBlocks s h (i + 1) rest P1 n1 with ⟨us, P2, n2⟩
          have hother : poolLookup P1 k = poolLookup pool k := by
            have hg := getMarkdown_lookup_other pool nid (PoolKey.text i) k
              (displayTextOf s t) hktext
            rw [hgm] at hg
            exact hg
          have hr : poolLookup P2 k = poolLookup P1 k := by
            have hr := ih (i + 1) P1 n1 k hk1
            rw [hrb] at hr
            exact hr
          simp only [renderBlocks, if_pos h1, if_pos h2, hgm, hrb]
          rw [hr, hother]
        · simp only [renderBlocks, if_pos h1, if_neg h2]
          exact ih (i + 1) pool nid k hk1
      · simp only [renderBlocks, if_neg h1]
        exact ih (i + 1) pool nid k hk1
    | thinking t sig =>
      cases h with
      | true =>
        by_cases h1 : jsTrim t ≠ ""
        · rcases hrb : renderBlocks s true (i + 1) rest pool nid with ⟨us, P2, n2⟩
          have hr : poolLookup P2 k = poolLookup pool k := by
            have hr := ih (i + 1) pool nid k hk1
            rw [hrb] at hr
            exact hr
          simp only [renderBlocks, if_pos h1, if_true, hrb]
          exact hr
        · simp only [renderBlocks, if_neg h1]
          exact ih (i + 1) pool nid k hk1
      | false =>
        by_cases h1 : jsTrim t ≠ ""
        · by_cases h2 : displayTextOf s t ≠ ""
          · rcases hgm : getMarkdown pool nid (PoolKey.thinking i) (displayTextOf s t)
              with ⟨md, P1, n1⟩
            rcases hrb : renderBlocks s false (i + 1) rest P1 n1 with ⟨us, P2, n2⟩
            have hother : poolLookup P1 k = poolLookup pool k := by
              have hg := getMarkdown_lookup_other pool nid (PoolKey.thinking i) k
                (displayTextOf s t) hkthink
              rw [hgm] at hg
              exact hg
            have hr : poolLookup P2 k = poolLookup P1 k := by
              have hr := ih (i + 1) P1 n1 k hk1
              rw [hrb] at hr
              exact hr
            simp only [renderBlocks, if_pos h1, if_pos h2, Bool.false_eq_true, if_false,
              hgm, hrb]
            rw [hr, hother]
          · rcases hrb : renderBlocks s false (i + 1) rest pool nid with ⟨us, P2, n2⟩
            have hr : poolLookup P2 k = poolLookup pool k := by
              have hr := ih (i + 1) pool nid k hk1
              rw [hrb] at hr
              exact hr
            simp only [renderBlocks, if_pos h1, if_neg h2, Bool.false_eq_true, if_false,
              hrb]
            exact hr
        · simp only [renderBlocks, if_neg h1]
          exact ih (i + 1) pool nid k hk1
    | toolCall tc =>
      simp only [renderBlocks]
      exact ih (i + 1) pool nid k hk1
    | otherBlock d =>
      simp only [renderBlocks]
      exact ih (i + 1) pool nid k hk1

/-- Re-running the block loop over its own output pool is the identity on the
render units, the pool and the allocation counter: every pooled instance is
reused via a no-op `setText` and nothing is recreated. -/
theorem renderBlocks_stable (s h : Bool) :
    ∀ (bs : List ContentBlock) (i : Nat) (pool : List (PoolKey × Markdown)) (nid : Nat),
      renderBlocks s h i bs (renderBlocks s h i bs pool nid).2.1
        (renderBlocks s h i bs pool nid).2.2 = renderBlocks s h i bs pool nid := by
  intro bs
  induction bs with
  | nil => intro i pool nid; rfl
  | cons b rest ih =>
    intro i pool nid
    cases b with
    | text t =>
      by_cases h1 : jsTrim t ≠ ""
      · by_cases h2 : displayTextOf s t ≠ ""
        · rcases hgm : getMarkdown pool nid (PoolKey.text i) (displayTextOf s t)
            with ⟨md, P1, n1⟩
          rcases hrb : renderBlocks s h (i + 1) rest P1 n1 with ⟨us, P2, n2⟩
          obtain ⟨hself, htext⟩ := getMarkdown_out _ _ _ _ _ _ _ hgm
          have hP2 : poolLookup P2 (PoolKey.text i) = some md := by
            have hl := renderBlocks_lookup_lower s h rest (i + 1) P1 n1 (PoolKey.text i)
              (Nat.lt_succ_self i)
            rw [hrb] at hl
            rw [hl]
            exact hself
          have hstab : getMarkdown P2 n2 (PoolKey.text i) (displayTextOf s t) =
              (md, P2, n2) := by
            have hg := getMarkdown_stable P2 n2 (PoolKey.text i) md hP2
            rw [htext] at hg
            exact hg
          have hrest : renderBlocks s h (i + 1) rest P2 n2 = (us, P2, n2) := by
            have hr := ih (i + 1) P1 n1
            rw [hrb] at hr
            exact hr
          simp only [renderBlocks, if_pos h1, if_pos h2, hgm, hrb, hstab, hrest]
        · simp only [renderBlocks, if_pos h1, if_neg h2]
          exact ih (i + 1) pool nid
      · simp only [renderBlocks, if_neg h1]
        exact ih (i + 1) pool nid
    | thinking t sig =>
      cases h with
      | true =>
        by_cases h1 : jsTrim t ≠ ""
        · rcases hrb : renderBlocks s true (i + 1) rest pool nid with ⟨us, P2, n2⟩
          have hrest : renderBlocks s true (i + 1) rest P2 n2 = (us, P2, n2) := by
            have hr := ih (i + 1) pool nid
            rw [hrb] at hr
            exact hr
          simp only [renderBlocks, if_pos h1, if_true, hrb, hrest]
        · simp only [renderBlocks, if_neg h1]
          exact ih (i + 1) pool nid
      | false =>
        by_cases h1 : jsTrim t ≠ ""
        · by_cases h2 : displayTextOf s t ≠ ""
          · rcases hgm : getMarkdown pool nid (PoolKey.thinking i) (displayTextOf s t)
              with ⟨md, P1, n1⟩
            rcases hrb : renderBlocks s false (i + 1) rest P1 n1 with ⟨us, P2, n2⟩
            obtain ⟨hself, htext⟩ := getMarkdown_out _ _ _ _ _ _ _ hgm
            have hP2 : poolLookup P2 (PoolKey.thinking i) = some md := by
              have hl := renderBlocks_lookup_lower s false rest (i + 1) P1 n1
                (PoolKey.thinking i) (Nat.lt_succ_self i)
              rw [hrb] at hl
              rw [hl]
              exact hself
            have hstab : getMarkdown P2 n2 (PoolKey.thinking i) (displayTextOf s t) =
                (md, P2, n2) := by
              have hg := getMarkdown_stable P2 n2 (PoolKey.thinking i) md hP2
              rw [htext] at hg
              exact hg
            have hrest : renderBlocks s false (i + 1) rest P2 n2 = (us, P2, n2) := by
              have hr := ih (i + 1) P1 n1
              rw [hrb] at hr
              exact hr
            simp only [renderBlocks, if_pos h1, if_pos h2, Bool.false_eq_true, if_false,
              hgm, hrb, hstab, hrest]
          · rcases hrb : renderBlocks s false (i + 1) rest pool nid with ⟨us, P2, n2⟩
            have hrest : renderBlocks s false (i + 1) rest P2 n2 = (us, P2, n2) := by
              have hr := ih (i + 1) pool nid
              rw [hrb] at hr
              exact hr
            simp only [renderBlocks, if_pos h1, if_neg h2, Bool.false_eq_true, if_false,
              hrb, hrest]
        · simp only [renderBlocks, if_neg h1]
          exact ih (i + 1) pool nid
    | toolCall tc =>
      simp only [renderBlocks]
      exact ih (i + 1) pool nid
    | otherBlock d =>
      simp only [renderBlocks]
      exact ih (i + 1) pool nid

theorem mdTextsOf_append (a b : List RenderUnit) :
    mdTextsOf (a ++ b) = mdTextsOf a ++ mdTextsOf b :=
  List.filterMap_append a b _

theorem rebuildContent_fields (st : RendererState) :
    (rebuildContent st).streaming = st.streaming ∧
    (rebuildContent st).hideThinkingBlock = st.hideThinkingBlock ∧
    (rebuildContent st).lastMessage = st.lastMessage := by
  obtain ⟨hd, lm, str, pl, ni, ct⟩ := st
  cases lm with
  | none => exact ⟨rfl, rfl, rfl⟩
  | some m =>
    unfold rebuildContent
    rcases hrb : renderBlocks str hd 0 m.content pl ni with ⟨us, P2, n2⟩
    simp [hrb]

/-- The full markdown texts handed to the render objects by one `update`,
for any state with thinking blocks shown. -/
theorem updateContent_mdTexts (st : RendererState) (msg : AssistantMessage)
    (hh : st.hideThinkingBlock = false) :
    mdTextsOf (updateContent st msg).content = expectedMdTexts st.streaming msg.content := by
  obtain ⟨hd, lm, str, pl, ni, ct⟩ := st
  simp only at hh
  subst hh
  show mdTextsOf (rebuildContent ⟨false, some msg, str, pl, ni, ct⟩).content = _
  unfold rebuildContent
  rcases hrb : renderBlocks str false 0 msg.content pl ni with ⟨us, P2, n2⟩
  simp only [hrb]
  have hus : mdTextsOf us = expectedMdTexts str msg.content := by
    have h := renderBlocks_mdTexts str msg.content 0 pl ni
    rw [hrb] at h
    exact h
  have hlead : mdTextsOf
      (if msg.content.any isVisibleBlock then [RenderUnit.spacer 1] else []) = [] := by
    by_cases h3 : msg.content.any isVisibleBlock <;> simp [h3, mdTextsOf]
  rw [mdTextsOf_append, mdTextsOf_append, hlead, mdTextsOf_errorNotice, hus]
  simp

theorem finalise_streaming (st : RendererState) : (finalise st).streaming = false := by
  obtain ⟨hd, lm, str, pl, ni, ct⟩ := st
  cases lm with
  | none => rfl
  | some m =>
    show (rebuildContent ⟨hd, some m, false, pl, ni, ct⟩).streaming = false
    rw [(rebuildContent_fields _).1]

theorem applyOp_streaming_false (st : RendererState) (op : RendererOp)
    (h : st.streaming = false) : (applyOp st op).streaming = false := by
  cases op with
  | update m =>
    show (updateContent st m).streaming = false
    unfold updateContent
    rw [(rebuildContent_fields _).1]
    exact h
  | finaliseOp => exact finalise_streaming st
  | invalidateOp =>
    show (invalidate st).streaming = false
    obtain ⟨hd, lm, str, pl, ni, ct⟩ := st
    simp only at h
    subst h
    cases lm with
    | none => rfl
    | some m =>
      show (rebuildContent ⟨hd, some m, false, [], ni, ct⟩).streaming = false
      rw [(rebuildContent_fields _).1]
  | setHide hb =>
    show (setHideThinkingBlock st hb).streaming = false
    unfold setHideThinkingBlock
    split_ifs <;> exact h

theorem applyOps_streaming_false :
    ∀ (ops : List RendererOp) (st : RendererState), st.streaming = false →
      (applyOps st ops).streaming = false := by
  intro ops
  induction ops with
  | nil => intro st h; exact h
  | cons op rest ih =>
    intro st h
    exact ih (applyOp st op) (applyOp_streaming_false st op h)

/-!
### C7: streaming atomicity (line-buffered rendering)
-/

/-- C7: while the renderer is streaming (thinking blocks shown), the texts
handed to the markdown render objects are exactly, for each text/thinking
block with visible content, the complete lines of the block's text — the
prefix up to and including the last newline, then trimmed; a block whose text
has no newline yet (empty complete-line prefix) contributes no markdown
render unit, its trailing partial line being withheld. -/
theorem streaming_atomicity (st : RendererState) (msg : AssistantMessage)
    (hs : st.streaming = true) (hh : st.hideThinkingBlock = false) :
    mdTextsOf (updateContent st msg).content = expectedMdTexts true msg.content := by
  have h := updateContent_mdTexts st msg hh
  rw [hs] at h
  exact h

/-- C7 witness: the delta `"Hello wor"` yields no markdown render unit; the
delta `"Hello world\n"` yields exactly one, containing `"Hello world"`. -/
theorem streaming_atomicity_witness :
    mdTextsOf (updateContent (initialRenderer false) msgHW1).content = [] ∧
      mdTextsOf (updateContent (updateContent (initialRenderer false) msgHW1)
        msgHW2).content = ["Hello world"] := by
  constructor
  · have h := streaming_atomicity (initialRenderer false) msgHW1 rfl rfl
    exact h.trans (by decide)
  · have h := streaming_atomicity (updateContent (initialRenderer false) msgHW1) msgHW2
      (by decide) (by decide)
    exact h.trans (by decide)

/-!
### C8: finalize is permanent and flushes the partial line
-/

/-- C8: after `finalise` the streaming flag is `false` and remains `false`
under every further sequence of operations (update, a second finalise,
invalidate, visibility toggles); and in any non-streaming state every update
hands the render objects the *full* trimmed text of every visible block —
including a trailing partial line that never received its newline. -/
theorem finalize_flush :
    (∀ (st : RendererState) (ops : List RendererOp),
        (applyOps (finalise st) ops).streaming = false) ∧
      (∀ (st : RendererState) (msg : AssistantMessage),
        st.streaming = false → st.hideThinkingBlock = false →
        mdTextsOf (updateContent st msg).content = expectedMdTexts false msg.content) := by
  constructor
  · intro st ops
    exact applyOps_streaming_false ops (finalise st) (finalise_streaming st)
  · intro st msg h1 h2
    have h := updateContent_mdTexts st msg h2
    rw [h1] at h
    exact h

/-- C8 witness: after `finalise`, an invalidate leaves streaming `false`, and
rendering `"Line 1\nTrailing"` shows the withheld `"Trailing"` even though no
newline ever arrived for it. -/
theorem finalize_flush_witness :
    (applyOps (finalise (initialRenderer false)) [RendererOp.invalidateOp]).streaming =
        false ∧
      mdTextsOf (updateContent (finalise (initialRenderer false))
        (mkSameModel [.text "Line 1\nTrailing"] .stop)).content = ["Line 1\nTrailing"] := by
  constructor
  · exact finalize_flush.1 (initialRenderer false) [RendererOp.invalidateOp]
  · have h := finalize_flush.2 (finalise (initialRenderer false))
      (mkSameModel [.text "Line 1\nTrailing"] .stop) (by decide) (by decide)
    exact h.trans (by decide)

/-!
### C9: cache stability of the render-object pool
-/

/-- C9: calling `update` twice with snapshots whose content is identical
leaves the render-object pool unchanged — for every block key the same pooled
`Markdown` instance (same allocation identity) is reused via a no-op
`setText`, and the allocation counter does not move (nothing is replaced or
recreated). -/
theorem cache_stability (st : RendererState) (msg msg' : AssistantMessage)
    (hc : msg'.content = msg.content) :
    (updateContent (updateContent st msg) msg').pool = (updateContent st msg).pool ∧
      (updateContent (updateContent st msg) msg').nextId =
        (updateContent st msg).nextId := by
  obtain ⟨hd, lm, str, pl, ni, ct⟩ := st
  rcases hrb : renderBlocks str hd 0 msg.content pl ni with ⟨us, P2, n2⟩
  have hstable : renderBlocks str hd 0 msg.content P2 n2 = (us, P2, n2) := by
    have h := renderBlocks_stable str hd msg.content 0 pl ni
    rw [hrb] at h
    exact h
  have e1 : updateContent (⟨hd, lm, str, pl, ni, ct⟩ : RendererState) msg =
      ⟨hd, some msg, str, P2, n2,
        (if msg.content.any isVisibleBlock then [RenderUnit.spacer 1] else []) ++ us ++
          errorNotice msg⟩ := by
    unfold updateContent rebuildContent
    simp [hrb]
  rw [e1]
  constructor <;>
  · unfold updateContent rebuildContent
    simp only [hc, hstable]

/-- C9 witness: repeating the `"Hello world\n"` snapshot reuses the pooled
instance — pool and allocation counter are unchanged by the second update. -/
theorem cache_stability_witness :
    (updateContent (updateContent (initialRenderer false) msgHW2) msgHW2).pool =
        (updateContent (initialRenderer false) msgHW2).pool ∧
      (updateContent (updateContent (initialRenderer false) msgHW2) msgHW2).nextId =
        (updateContent (initialRenderer false) msgHW2).nextId :=
  cache_stability (initialRenderer false) msgHW2 msgHW2 rfl

/-!
### C5: idempotence of the normalizer

The claim quantifies over every id-remap function. A remap that is not stable
on already-remapped ids (e.g. appending a suffix) is applied *again* on the
second pass, so idempotence fails as stated; it holds when no remap function
is supplied (the form `normalize(normalize(M, model), model)` of the spec).
The proof is a simulation: the second pass consumes the first pass's output
chunk by chunk, its batch state either tracking the first pass's exactly or
holding only already-answered pending calls.
-/

theorem applyAdds_nil (m : List (String × String)) : applyAdds m [] = m := rfl

/-- The user step, flushing branch. -/
theorem transformGo_user_flush (model : ModelSpec) (remap : Option RemapFn) (now : Nat)
    (c : String) (t : Nat) (rest : List Message) (st : NormState)
    (hp : st.pending ≠ []) :
    transformGo model remap now (Message.user c t :: rest) st =
      flushPending now st.pending st.seen ++ (Message.user c t ::
        transformGo model remap now rest { st with pending := [], seen := [] }) := by
  simp [transformGo, hp]

/-- The user step, no pending batch. -/
theorem transformGo_user_noflush (model : ModelSpec) (remap : Option RemapFn) (now : Nat)
    (c : String) (t : Nat) (rest : List Message) (st : NormState)
    (hp : ¬st.pending ≠ []) :
    transformGo model remap now (Message.user c t :: rest) st =
      Message.user c t :: transformGo model remap now rest st := by
  simp [transformGo, hp]

/-- The tool-result step when the id map is empty. -/
theorem transformGo_toolResult_nilMap (model : ModelSpec) (remap : Option RemapFn)
    (now : Nat) (r : ToolResultMessage) (rest : List Message) (st : NormState)
    (h : st.idMap = []) :
    transformGo model remap now (Message.toolResult r :: rest) st =
      Message.toolResult r :: transformGo model remap now rest
        { st with seen := st.seen ++ [r.toolCallId] } := by
  obtain ⟨m, p, s⟩ := st
  simp only at h
  subst h
  simp [transformGo, rewriteToolResult_nil]

/-- The other-role step. -/
theorem transformGo_otherRole (model : ModelSpec) (remap : Option RemapFn) (now : Nat)
    (d : String) (rest : List Message) (st : NormState) :
    transformGo model remap now (Message.otherRole d :: rest) st =
      Message.otherRole d :: transformGo model remap now rest st := rfl

/-- The assistant step for a non-errored message, from an arbitrary state. -/
theorem transformGo_assistant_general (model : ModelSpec) (remap : Option RemapFn)
    (now : Nat) (a : AssistantMessage) (rest : List Message) (st : NormState)
    (hne : ¬(a.stopReason = .error ∨ a.stopReason = .aborted)) :
    transformGo model remap now (Message.assistant a :: rest) st =
      (if st.pending ≠ [] then flushPending now st.pending st.seen else []) ++
        Message.assistant (transformAssistant model remap a).1 ::
          transformGo model remap now rest
            (if toolCallsOf (transformAssistant model remap a).1.content ≠ []
             then { idMap := applyAdds st.idMap (transformAssistant model remap a).2,
                    pending := toolCallsOf (transformAssistant model remap a).1.content,
                    seen := [] }
             else { idMap := applyAdds st.idMap (transformAssistant model remap a).2,
                    pending := if st.pending ≠ [] then [] else st.pending,
                    seen := if st.pending ≠ [] then [] else st.seen }) := by
  rcases hTA : transformAssistant model remap a with ⟨a1, adds⟩
  by_cases hp : st.pending ≠ [] <;> by_cases htc : toolCallsOf a1.content ≠ [] <;>
    simp [transformGo, hne, hTA, hp, htc]

/-- Processing a flush chunk: the synthetic results pass through and their
ids are added to the seen set. -/
theorem transformGo_flush_chunk (model : ModelSpec) (remap : Option RemapFn)
    (now' now : Nat) (P : List ToolCall) (S : List String) (rest : List Message)
    (st : NormState) (h : st.idMap = []) :
    transformGo model remap now' (flushPending now P S ++ rest) st =
      flushPending now P S ++ transformGo model remap now' rest
        { st with seen := st.seen ++
            (P.filter (fun tc => decide (tc.id ∉ S))).map (·.id) } := by
  have hflush : flushPending now P S =
      ((P.filter (fun tc => decide (tc.id ∉ S))).map (syntheticToolResult now)).map
        Message.toolResult := by
    simp [flushPending, List.map_map]
  rw [hflush, transformGo_toolResults model remap now' _ rest st h]
  have hids : ((P.filter (fun tc => decide (tc.id ∉ S))).map
      (syntheticToolResult now)).map (·.toolCallId) =
      (P.filter (fun tc => decide (tc.id ∉ S))).map (·.id) := by
    simp [List.map_map]
    intro tc _ _
    rfl
  rw [hids]

/-- Every pending id is covered after its own flush. -/
theorem covered_after_flush (P : List ToolCall) (S : List String) :
    ∀ tc ∈ P, tc.id ∈ S ++ (P.filter (fun tc => decide (tc.id ∉ S))).map (·.id) := by
  intro tc htc
  by_cases h : tc.id ∈ S
  · exact List.mem_append_left _ h
  · refine List.mem_append_right _ ?_
    exact List.mem_map.mpr ⟨tc, List.mem_filter.mpr ⟨htc, by simp [h]⟩, rfl⟩

/-- A flush over fully covered pending calls emits nothing. -/
theorem flushPending_of_covered (now : Nat) (P : List ToolCall) (S : List String)
    (h : ∀ tc ∈ P, tc.id ∈ S) : flushPending now P S = [] := by
  unfold flushPending
  rw [List.filter_eq_nil_iff.mpr (fun tc htc => by simp [h tc htc])]
  rfl

/-- Every block produced by a remap-free transform is a fixed point of the
transform. -/
theorem transformBlock_none_fix (isSame : Bool) (model : ModelSpec)
    (src src' : AssistantMessage) (b c : ContentBlock)
    (hc : c ∈ (transformBlock isSame none model src b).1) :
    transformBlock isSame none model src' c = ([c], []) := by
  cases b with
  | thinking t sig =>
    by_cases hs : isSame = true <;> by_cases hsig : strTruthy sig = true <;>
      by_cases h2 : jsTrim t = "" <;>
      simp only [transformBlock, hs, hsig, h2, Bool.true_and, Bool.false_and, if_true,
        if_false, Bool.false_eq_true, reduceIte, List.mem_singleton, List.not_mem_nil,
        ite_true, ite_false, not_true_eq_false, not_false_eq_true] at hc <;>
      first
        | exact absurd hc (fun h => h)
        | (subst hc; simp [transformBlock, hs, hsig, h2])
  | text t =>
    by_cases hs : isSame = true <;> simp only [transformBlock, hs, if_true, if_false,
      Bool.false_eq_true, reduceIte, List.mem_singleton] at hc <;>
      (subst hc; by_cases hs' : isSame = true <;> simp [transformBlock, hs'])
  | toolCall tc =>
    by_cases hs : isSame = true
    · simp only [transformBlock, hs, Bool.not_true, Bool.false_and, Bool.false_eq_true,
        reduceIte, List.mem_singleton] at hc
      subst hc
      simp [transformBlock, hs]
    · by_cases hsig : strTruthy tc.thoughtSignature = true
      · simp only [transformBlock, hs, hsig] at hc
        simp only [Bool.not_false, Bool.true_and, Bool.and_true, if_true,
          List.mem_singleton, Bool.not_eq_true, reduceIte] at hc
        have hc' : c = ContentBlock.toolCall { tc with thoughtSignature := none } := by
          simpa using hc
        subst hc'
        simp [transformBlock, hs, strTruthy]
      · simp only [transformBlock, hs, hsig] at hc
        have hc' : c = ContentBlock.toolCall tc := by
          simpa [hsig] using hc
        subst hc'
        simp [transformBlock, hs, hsig]
  | otherBlock d =>
    simp only [transformBlock, List.mem_singleton] at hc
    subst hc
    rfl

/-- Every block of a remap-free transformed content list is a fixed point. -/
theorem transformContent_out_fix (isSame : Bool) (model : ModelSpec)
    (src src' : AssistantMessage) :
    ∀ (blocks : List ContentBlock) (c : ContentBlock),
      c ∈ (transformContent isSame none model src blocks).1 →
      transformBlock isSame none model src' c = ([c], []) := by
  intro blocks
  induction blocks with
  | nil => intro c hc; simp [transformContent] at hc
  | cons b rest ih =>
    intro c hc
    simp only [transformContent, List.mem_append] at hc
    rcases hc with hc | hc
    · exact transformBlock_none_fix isSame model src src' b c hc
    · exact ih c hc

/-- A content list of fixed-point blocks transforms to itself. -/
theorem transformContent_fixed (isSame : Bool) (model : ModelSpec)
    (src' : AssistantMessage) :
    ∀ (cs : List ContentBlock),
      (∀ c ∈ cs, transformBlock isSame none model src' c = ([c], [])) →
      transformContent isSame none model src' cs = (cs, []) := by
  intro cs
  induction cs with
  | nil => intro _; rfl
  | cons c rest ih =>
    intro h
    simp only [transformContent, h c (by simp), ih (fun x hx => h x (by simp [hx]))]
    simp

/-- Transforming an already remap-free-transformed assistant message changes
nothing. -/
theorem transformAssistant_none_idem (model : ModelSpec) (a : AssistantMessage) :
    transformAssistant model none (transformAssistant model none a).1 =
      ((transformAssistant model none a).1, []) := by
  rcases hTC : transformContent (sameModel a model) none model a a.content
    with ⟨newC, adds⟩
  have ha' : (transformAssistant model none a).1 = { a with content := newC } := by
    simp [transformAssistant, hTC]
  rw [ha']
  have hsame : sameModel { a with content := newC } model = sameModel a model := rfl
  have hfix : ∀ c ∈ newC, transformBlock (sameModel a model) none model
      { a with content := newC } c = ([c], []) := by
    intro c hc
    apply transformContent_out_fix (sameModel a model) model a
      { a with content := newC } a.content c
    rw [hTC]
    exact hc
  have hfixed := transformContent_fixed (sameModel a model) model
    { a with content := newC } newC hfix
  simp [transformAssistant, hsame, hfixed]

theorem transformAssistant_adds_none (model : ModelSpec) (a : AssistantMessage) :
    (transformAssistant model none a).2 = [] := by
  simp [transformAssistant, transformContent_adds_none]

theorem transformAssistant_stopReason (model : ModelSpec) (remap : Option RemapFn)
    (a : AssistantMessage) :
    (transformAssistant model remap a).1.stopReason = a.stopReason := by
  rcases hTC : transformContent (sameModel a model) remap model a a.content
    with ⟨newC, adds⟩
  simp [transformAssistant, hTC]

/-- The simulation: a remap-free second pass over the output of a remap-free
first pass reproduces that output exactly, from any related pair of
states. -/
theorem transformGo_none_idem (model : ModelSpec) (now now' : Nat) :
    ∀ (msgs : List Message) (st1 st2 : NormState), StRel st1 st2 →
      transformGo model none now' (transformGo model none now msgs st1) st2 =
        transformGo model none now msgs st1 := by
  intro msgs
  induction msgs with
  | nil => intro st1 st2 _; rfl
  | cons m rest ih =>
    intro st1 st2 hrel
    obtain ⟨m1, p1, s1⟩ := st1
    obtain ⟨m2, p2, s2⟩ := st2
    obtain ⟨hm1, hm2, hps⟩ := hrel
    simp only at hm1 hm2
    subst hm1
    subst hm2
    simp only [pendingCovered, StRel] at hps
    cases m with
    | user c t =>
      by_cases hp1 : p1 ≠ []
      · obtain ⟨hpeq, hseq⟩ : p1 = p2 ∧ s1 = s2 := by
          rcases hps with h | h
          · exact ⟨h.1.symm, h.2.symm⟩
          · exact absurd h.1 hp1
        subst hpeq
        subst hseq
        rw [transformGo_user_flush model none now c t rest ⟨[], p1, s1⟩ hp1]
        rw [transformGo_flush_chunk model none now' now p1 s1 _ ⟨[], p1, s1⟩ rfl]
        try dsimp only
        rw [transformGo_user_flush model none now' c t _ _ hp1]
        try dsimp only
        rw [flushPending_of_covered now' p1 _ (covered_after_flush p1 s1)]
        try simp only [applyAdds_nil]
        rw [ih ⟨[], [], []⟩ ⟨[], [], []⟩ ⟨rfl, rfl, Or.inl ⟨rfl, rfl⟩⟩]
        simp
      · push_neg at hp1
        subst hp1
        rw [transformGo_user_noflush model none now c t rest ⟨[], [], s1⟩ (by simp)]
        by_cases hp2 : p2 ≠ []
        · have hcov : pendingCovered ⟨[], p2, s2⟩ := by
            rcases hps with h | h
            · exact absurd h.1 hp2
            · exact h.2
          rw [transformGo_user_flush model none now' c t _ ⟨[], p2, s2⟩ hp2]
          try dsimp only
          rw [flushPending_of_covered now' p2 s2 hcov]
          try simp only [applyAdds_nil]
          rw [ih ⟨[], [], s1⟩ ⟨[], [], []⟩ ⟨rfl, rfl, Or.inr ⟨rfl, by intro tc h; cases h⟩⟩]
          simp
        · rw [transformGo_user_noflush model none now' c t _ ⟨[], p2, s2⟩ hp2]
          try simp only [applyAdds_nil]
          rw [ih ⟨[], [], s1⟩ ⟨[], p2, s2⟩ ⟨rfl, rfl, hps⟩]
    | toolResult r =>
      rw [transformGo_toolResult_nilMap model none now r rest ⟨[], p1, s1⟩ rfl]
      rw [transformGo_toolResult_nilMap model none now' r _ ⟨[], p2, s2⟩ rfl]
      try dsimp only
      try simp only [applyAdds_nil]
      rw [ih ⟨[], p1, s1 ++ [r.toolCallId]⟩ ⟨[], p2, s2 ++ [r.toolCallId]⟩ ?_]
      refine ⟨rfl, rfl, ?_⟩
      rcases hps with h | h
      · exact Or.inl ⟨h.1, by rw [h.2]⟩
      · refine Or.inr ⟨h.1, ?_⟩
        intro tc htc
        exact List.mem_append_left _ (h.2 tc htc)
    | otherRole d =>
      rw [transformGo_otherRole model none now d rest ⟨[], p1, s1⟩]
      rw [transformGo_otherRole model none now' d _ ⟨[], p2, s2⟩]
      try simp only [applyAdds_nil]
      rw [ih ⟨[], p1, s1⟩ ⟨[], p2, s2⟩ ⟨rfl, rfl, hps⟩]
    | assistant a =>
      by_cases he : a.stopReason = .error ∨ a.stopReason = .aborted
      · rw [error_turn_exclusion model none now a rest ⟨[], p1, s1⟩ he]
        by_cases hp1 : p1 ≠ []
        · obtain ⟨hpeq, hseq⟩ : p1 = p2 ∧ s1 = s2 := by
            rcases hps with h | h
            · exact ⟨h.1.symm, h.2.symm⟩
            · exact absurd h.1 hp1
          subst hpeq
          subst hseq
          try dsimp only
          rw [if_pos hp1, if_pos hp1]
          rw [transformGo_flush_chunk model none now' now p1 s1 _ ⟨[], p1, s1⟩ rfl]
          try dsimp only
          try simp only [applyAdds_nil]
          rw [ih ⟨[], [], []⟩ ⟨[], p1, s1 ++ _⟩
            ⟨rfl, rfl, Or.inr ⟨rfl, fun tc htc => covered_after_flush p1 s1 tc htc⟩⟩]
        · push_neg at hp1
          subst hp1
          try dsimp only
          rw [if_neg (by simp), if_neg (by simp), List.nil_append]
          exact ih ⟨[], [], s1⟩ ⟨[], p2, s2⟩ ⟨rfl, rfl, hps⟩
      · rw [transformGo_assistant_general model none now a rest ⟨[], p1, s1⟩ he]
        have hadds := transformAssistant_adds_none model a
        have hidem := transformAssistant_none_idem model a
        have hne1 : ¬((transformAssistant model none a).1.stopReason = .error ∨
            (transformAssistant model none a).1.stopReason = .aborted) := by
          rw [transformAssistant_stopReason]
          exact he
        rw [hadds]
        try dsimp only
        by_cases htc : toolCallsOf (transformAssistant model none a).1.content ≠ []
        · rw [if_pos htc]
          by_cases hp1 : p1 ≠ []
          · obtain ⟨hpeq, hseq⟩ : p1 = p2 ∧ s1 = s2 := by
              rcases hps with h | h
              · exact ⟨h.1.symm, h.2.symm⟩
              · exact absurd h.1 hp1
            subst hpeq
            subst hseq
            rw [if_pos hp1]
            rw [transformGo_flush_chunk model none now' now p1 s1 _ ⟨[], p1, s1⟩ rfl]
            try dsimp only
            rw [transformGo_assistant_general model none now'
              (transformAssistant model none a).1 _ _ hne1, hidem]
            try dsimp only
            rw [if_pos htc, if_pos hp1]
            rw [flushPending_of_covered now' p1 _ (covered_after_flush p1 s1)]
            try simp only [applyAdds_nil]
            rw [ih ⟨[], toolCallsOf (transformAssistant model none a).1.content, []⟩
              ⟨[], toolCallsOf (transformAssistant model none a).1.content, []⟩
              ⟨rfl, rfl, Or.inl ⟨rfl, rfl⟩⟩]
            simp
          · push_neg at hp1
            subst hp1
            rw [if_neg (by simp), List.nil_append]
            rw [transformGo_assistant_general model none now'
              (transformAssistant model none a).1 _ ⟨[], p2, s2⟩ hne1, hidem]
            try dsimp only
            rw [if_pos htc]
            by_cases hp2 : p2 ≠ []
            · have hcov : pendingCovered ⟨[], p2, s2⟩ := by
                rcases hps with h | h
                · exact absurd h.1 hp2
                · exact h.2
              rw [if_pos hp2]
              rw [flushPending_of_covered now' p2 s2 hcov]
              try simp only [applyAdds_nil]
              rw [ih ⟨[], toolCallsOf (transformAssistant model none a).1.content, []⟩
                ⟨[], toolCallsOf (transformAssistant model none a).1.content, []⟩
                ⟨rfl, rfl, Or.inl ⟨rfl, rfl⟩⟩]
              simp
            · rw [if_neg hp2]
              try simp only [applyAdds_nil]
              rw [ih ⟨[], toolCallsOf (transformAssistant model none a).1.content, []⟩
                ⟨[], toolCallsOf (transformAssistant model none a).1.content, []⟩
                ⟨rfl, rfl, Or.inl ⟨rfl, rfl⟩⟩]
              simp
        · rw [if_neg htc]
          by_cases hp1 : p1 ≠ []
          · obtain ⟨hpeq, hseq⟩ : p1 = p2 ∧ s1 = s2 := by
              rcases hps with h | h
              · exact ⟨h.1.symm, h.2.symm⟩
              · exact absurd h.1 hp1
            subst hpeq
            subst hseq
            simp only [if_pos hp1]
            rw [transformGo_flush_chunk model none now' now p1 s1 _ ⟨[], p1, s1⟩ rfl]
            try dsimp only
            rw [transformGo_assistant_general model none now'
              (transformAssistant model none a).1 _ _ hne1, hidem]
            try dsimp only
            simp only [if_neg htc, if_pos hp1, applyAdds_nil]
            rw [flushPending_of_covered now' p1 _ (covered_after_flush p1 s1)]
            rw [ih ⟨[], [], []⟩ ⟨[], [], []⟩ ⟨rfl, rfl, Or.inl ⟨rfl, rfl⟩⟩]
            simp
          · push_neg at hp1
            subst hp1
            simp only [if_neg (show ¬(([] : List ToolCall) ≠ []) from by simp)]
            rw [List.nil_append]
            rw [transformGo_assistant_general model none now'
              (transformAssistant model none a).1 _ ⟨[], p2, s2⟩ hne1, hidem]
            try dsimp only
            rw [if_neg htc]
            by_cases hp2 : p2 ≠ []
            · have hcov : pendingCovered ⟨[], p2, s2⟩ := by
                rcases hps with h | h
                · exact absurd h.1 hp2
                · exact h.2
              simp only [if_pos hp2, applyAdds_nil]
              rw [flushPending_of_covered now' p2 s2 hcov]
              rw [ih ⟨[], [], s1⟩ ⟨[], [], []⟩
                ⟨rfl, rfl, Or.inr ⟨rfl, by intro tc h; cases h⟩⟩]
              simp
            · simp only [if_neg hp2, applyAdds_nil]
              rw [ih ⟨[], [], s1⟩ ⟨[], p2, s2⟩ ⟨rfl, rfl, hps⟩]
              simp

/-- C5 counterexample: with the id-remap function appending `"x"`, a second
pass remaps the already-remapped id again (`"a"` → `"ax"` → `"axx"`), so
normalize is *not* idempotent for every id-remap function. -/
theorem normalize_idempotent_counterexample :
    transformMessages
        (transformMessages [Message.assistant (mkCrossModel [.toolCall tcIdA] .toolUse)]
          modelA (some (fun i _ _ => i ++ "x")) 0)
        modelA (some (fun i _ _ => i ++ "x")) 0 ≠
      transformMessages [Message.assistant (mkCrossModel [.toolCall tcIdA] .toolUse)]
        modelA (some (fun i _ _ => i ++ "x")) 0 := by
  decide

/-- C5 amended: `normalize` is idempotent when no id-remap function is
supplied (the spec's form `normalize(normalize(M, model), model)`): a second
pass over already-normalized output makes no further changes, for any
`Date.now()` values. With a remap function, idempotence additionally requires
the remap to be stable on already-remapped ids (see the counterexample). -/
theorem normalize_idempotent (msgs : List Message) (model : ModelSpec) (now now' : Nat) :
    transformMessages (transformMessages msgs model none now) model none now' =
      transformMessages msgs model none now :=
  transformGo_none_idem model now now' msgs initState initState
    ⟨rfl, rfl, Or.inl ⟨rfl, rfl⟩⟩

end Pi
